import Mathlib

/-!
Shallow embedding of the direct ("slow") nonlinear Fourier transform
pipeline of `fnft_nsev_slow.c` and `fnft__nse_scatter_matrix.c`.

Numeric conventions of the embedding:
* C `double complex` values are modelled by pairs of rationals (`CQ`).
  All arithmetic the claims depend on is exact field arithmetic, so the
  rational model reproduces the C expressions verbatim.
* Transcendental quantities that the C code obtains from libm (`CEXP`,
  the constant `PI`) and library routines whose sources are not part of
  this excerpt (`misc_l2norm2`, `misc_resample`, the scattering engines
  `akns_scatter_matrix` / `nse_scatter_bound_states`, and the
  discretization descriptor tables) enter the model as explicit
  parameters ("oracles"), so every theorem quantifies over them.
* Comparisons of complex magnitudes (`CABS`) are embedded by comparing
  squared magnitudes (`CQ.absSq`), which is exact for the comparisons the
  code performs: for a nonnegative threshold `t`, `|z| < t ↔ absSq z < t^2`,
  and `|z| < |w| ↔ absSq z < absSq w`.  Quotients `|z|/|w| < t` are
  embedded cross-multiplied as `absSq z < t^2 * absSq w`, which also
  reproduces the IEEE behaviour that a comparison against `inf`/`nan`
  (the case `w = 0`) is false.
* C buffers are modelled as `List CQ` values; an in-place write is a
  `List.set`.  `malloc`ed scratch memory is assumed to succeed (the
  `OutOfMemory` paths are not the subject of any claim).
-/

/-- A complex number with rational real and imaginary parts; the model of
the C `double complex` values handled by the pipeline. -/
structure CQ where
  re : ℚ
  im : ℚ
  deriving DecidableEq, Repr

namespace CQ

/-- Componentwise addition. -/
protected def add (x y : CQ) : CQ := ⟨x.re + y.re, x.im + y.im⟩

/-- Componentwise subtraction. -/
protected def sub (x y : CQ) : CQ := ⟨x.re - y.re, x.im - y.im⟩

/-- Componentwise negation. -/
protected def neg (x : CQ) : CQ := ⟨-x.re, -x.im⟩

/-- Complex multiplication. -/
protected def mul (x y : CQ) : CQ :=
  ⟨x.re * y.re - x.im * y.im, x.re * y.im + x.im * y.re⟩

/-- Complex conjugate (C `CONJ`). -/
def conj (x : CQ) : CQ := ⟨x.re, -x.im⟩

/-- Squared magnitude, `CABS z ^ 2`. -/
def absSq (x : CQ) : ℚ := x.re * x.re + x.im * x.im

/-- Complex division (exact field division). -/
protected def div (x y : CQ) : CQ :=
  ⟨(x.re * y.re + x.im * y.im) / y.absSq, (x.im * y.re - x.re * y.im) / y.absSq⟩

instance : Add CQ := ⟨CQ.add⟩
instance : Sub CQ := ⟨CQ.sub⟩
instance : Neg CQ := ⟨CQ.neg⟩
instance : Mul CQ := ⟨CQ.mul⟩
instance : Div CQ := ⟨CQ.div⟩
instance : Zero CQ := ⟨⟨0, 0⟩⟩
instance : One CQ := ⟨⟨1, 0⟩⟩
instance : Inhabited CQ := ⟨0⟩

/-- The imaginary unit (C `I`). -/
def iu : CQ := ⟨0, 1⟩

/-- Embed a rational scalar (real phase factors, step sizes). -/
def ofRat (a : ℚ) : CQ := ⟨a, 0⟩

/-- Embed an integer scalar (the sign `kappa`). -/
def ofInt (n : ℤ) : CQ := ⟨(n : ℚ), 0⟩

@[simp] theorem add_mk (a b c d : ℚ) : (⟨a, b⟩ + ⟨c, d⟩ : CQ) = ⟨a + c, b + d⟩ := rfl
@[simp] theorem sub_mk (a b c d : ℚ) : (⟨a, b⟩ - ⟨c, d⟩ : CQ) = ⟨a - c, b - d⟩ := rfl
@[simp] theorem neg_mk (a b : ℚ) : (-(⟨a, b⟩ : CQ)) = ⟨-a, -b⟩ := rfl
@[simp] theorem mul_mk (a b c d : ℚ) :
    (⟨a, b⟩ * ⟨c, d⟩ : CQ) = ⟨a * c - b * d, a * d + b * c⟩ := rfl
@[simp] theorem div_mk (a b c d : ℚ) :
    (⟨a, b⟩ / ⟨c, d⟩ : CQ)
      = ⟨(a * c + b * d) / (c * c + d * d), (b * c - a * d) / (c * c + d * d)⟩ := rfl
@[simp] theorem conj_mk (a b : ℚ) : conj ⟨a, b⟩ = ⟨a, -b⟩ := rfl
@[simp] theorem absSq_mk (a b : ℚ) : absSq ⟨a, b⟩ = a * a + b * b := rfl
@[simp] theorem re_mk (a b : ℚ) : (CQ.mk a b).re = a := rfl
@[simp] theorem im_mk (a b : ℚ) : (CQ.mk a b).im = b := rfl
@[simp] theorem zero_def : (0 : CQ) = ⟨0, 0⟩ := rfl
@[simp] theorem one_def : (1 : CQ) = ⟨1, 0⟩ := rfl
@[simp] theorem mk_eq_mk (a b c d : ℚ) : (CQ.mk a b = CQ.mk c d) ↔ (a = c ∧ b = d) := by
  constructor
  · intro h; exact ⟨congrArg CQ.re h, congrArg CQ.im h⟩
  · rintro ⟨h1, h2⟩; rw [h1, h2]

theorem ext_iff (x y : CQ) : x = y ↔ x.re = y.re ∧ x.im = y.im := by
  cases x; cases y; simp

end CQ

/-- The FNFT status codes relevant to the modelled pipeline. -/
inductive Err
  | InvalidArgument
  | DivideByZero
  | NoMemory
  | Subroutine
  | Other
  deriving DecidableEq, Repr

/-- `fnft_nsev_bsfilt_*`: bound-state filtering policies. -/
inductive BsFilt | NONE | BASIC | FULL
  deriving DecidableEq, Repr

/-- `fnft_nsev_bsloc_*`: bound-state localization methods (only `NEWTON`
is implemented by the slow pipeline; any other choice hits the `default`
branch). -/
inductive BsLoc | FAST_EIGEN | NEWTON | SUBSAMPLE_AND_REFINE | GRIDSEARCH
  deriving DecidableEq, Repr

/-- `fnft_nsev_dstype_*`: discrete-spectrum output kinds. -/
inductive DsType | NORMING_CONSTANTS | RESIDUES | BOTH
  deriving DecidableEq, Repr

/-- `fnft_nsev_cstype_*`: continuous-spectrum output kinds. -/
inductive CsType | REFLECTION_COEFFICIENT | AB | BOTH
  deriving DecidableEq, Repr

/-- `fnft_nse_discretization_t`: the discretization identities the
resampler dispatches on. -/
inductive Discretization | BO | CF4_2 | CF4_3 | CF5_3 | CF6_4 | ES4 | TES4
  deriving DecidableEq, Repr

/-- `fnft_nsev_slow_opts_t`. -/
structure Opts where
  bound_state_filtering : BsFilt
  bound_state_localization : BsLoc
  niter : ℕ
  discspec_type : DsType
  contspec_type : CsType
  normalization_flag : Bool
  discretization : Discretization
  richardson_extrapolation_flag : Bool
  deriving DecidableEq, Repr

/-- The process-wide default options value. -/
def default_opts : Opts :=
  { bound_state_filtering := .FULL
    bound_state_localization := .NEWTON
    niter := 10
    discspec_type := .NORMING_CONSTANTS
    contspec_type := .REFLECTION_COEFFICIENT
    normalization_flag := true
    discretization := .BO
    richardson_extrapolation_flag := false }

/-- Machine epsilon for `double` (C `EPSILON` = `DBL_EPSILON`), exactly. -/
def EPSILON : ℚ := 1 / 2 ^ 52

/-- Modelled from the spec: the oversampling scale of the Discretization
Descriptor (`fnft__nse_discretization_D_scale`; its source is not part of
this excerpt).  The values are forced by §4.2 of the spec ("how many
effective samples one original sample expands to") together with the
per-step strides of the resampler's scheme branches: `BO` emits one
effective sample per step, `CF4_2` two, `CF4_3`/`CF5_3` three, `CF6_4`
four, and the derivative-based `ES4`/`TES4` three (value, first and
second derivative nodes). -/
def nse_discretization_D_scale : Discretization → ℕ
  | .BO => 1
  | .CF4_2 => 2
  | .CF4_3 => 3
  | .CF5_3 => 3
  | .CF6_4 => 4
  | .ES4 => 3
  | .TES4 => 3

/-- An extended rational, for the `±INFINITY` entries of the filtering
bounding box. -/
inductive ER
  | ninf
  | fin (x : ℚ)
  | pinf
  deriving DecidableEq, Repr

/-- `bound ≤ value` for a lower box bound. -/
def ER.leQ : ER → ℚ → Prop
  | .ninf, _ => True
  | .fin a, x => a ≤ x
  | .pinf, _ => False

/-- `value ≤ bound` for an upper box bound. -/
def ER.geQ : ER → ℚ → Prop
  | .ninf, _ => False
  | .fin a, x => x ≤ a
  | .pinf, _ => True

instance : ∀ (b : ER) (x : ℚ), Decidable (ER.leQ b x) := fun b x => by
  cases b <;> simp [ER.leQ] <;> infer_instance

instance : ∀ (b : ER) (x : ℚ), Decidable (ER.geQ b x) := fun b x => by
  cases b <;> simp [ER.geQ] <;> infer_instance

/-- The `bounding_box[4]` array: `[reMin, reMax, imMin, imMax]`. -/
structure Box where
  reMin : ER
  reMax : ER
  imMin : ER
  imMax : ER

/-- Membership of a candidate in the bounding box. -/
def Box.mem (b : Box) (z : CQ) : Prop :=
  b.reMin.leQ z.re ∧ b.reMax.geQ z.re ∧ b.imMin.leQ z.im ∧ b.imMax.geQ z.im

instance (b : Box) (z : CQ) : Decidable (b.mem z) := by
  unfold Box.mem; infer_instance

/-- Modelled from the spec: `fnft__misc_filter` (its source is not part of
this excerpt).  §4.6: "drop every candidate outside the box in a single
pass, compacting the surviving set in place; the count is updated in
place."  The first `K` buffer entries are scanned; survivors are
compacted to the front, and buffer positions past the surviving count
keep their old contents. -/
def misc_filter (K : ℕ) (buf : List CQ) (box : Box) : ℕ × List CQ :=
  let kept := (buf.take K).filter (fun z => decide (box.mem z))
  (kept.length, kept ++ buf.drop kept.length)

/-- Modelled from the spec: `fnft__misc_merge` (its source is not part of
this excerpt).  §4.6: "coalesce any two candidates whose distance is
below `sqrt(machine epsilon)`, keeping one representative."  The distance
comparison is embedded squared: `dist < sqrt eps ↔ distSq < eps`.  The
first `K` entries are scanned in order; a candidate within the tolerance
of an already kept one is dropped, and buffer positions past the
surviving count keep their old contents. -/
def misc_merge (tolSq : ℚ) (K : ℕ) (buf : List CQ) : ℕ × List CQ :=
  let merged := (buf.take K).foldl
    (fun acc z => if acc.any (fun w => decide (CQ.absSq (z - w) < tolSq)) then acc
                  else acc ++ [z]) []
  (merged.length, merged ++ buf.drop merged.length)

/-- The real-part filtering bound `0.9*PI/FABS(2*eps_t)` of
`fnft_nsev_slow.c`; `piQ` stands for the real constant `PI`. -/
def re_bound (piQ eps_t : ℚ) : ℚ := 9 / 10 * piQ / |2 * eps_t|

/-- The imaginary-part filtering bound `1.5 * 0.25 * misc_l2norm2(D, q, T[0], T[1])`
of `fnft_nsev_slow.c`; `l2` is the oracle for `fnft__misc_l2norm2`, whose
source is not part of this excerpt. -/
def im_bound (l2 : ℕ → List CQ → ℚ → ℚ → ℚ) (D : ℕ) (q : List CQ) (T0 T1 : ℚ) : ℚ :=
  3 / 2 * (1 / 4 : ℚ) * l2 D q T0 T1

/-! ## Buffer and error-propagation helpers -/

/-- Sequential processing of a list with error short-circuit (the shape
of every C loop whose body can `return` an error code). -/
def mapExcept {α β : Type} (g : α → Except Err β) : List α → Except Err (List β)
  | [] => .ok []
  | x :: xs =>
    match g x with
    | .error e => .error e
    | .ok y =>
      match mapExcept g xs with
      | .error e => .error e
      | .ok ys => .ok (y :: ys)

theorem mapExcept_ok {α β : Type} (g : α → Except Err β) (t : ℕ → β) :
    ∀ (l : List α), (∀ i (h : i < l.length), g (l.get ⟨i, h⟩) = .ok (t i)) →
      mapExcept g l = .ok ((List.range l.length).map t) := by
  intro l
  induction l generalizing t with
  | nil => intro _; rfl
  | cons x xs ih =>
    intro h
    have h0 := h 0 (by simp)
    have hrest := ih (fun i => t (i + 1)) (fun i hi => h (i + 1) (by simpa using hi))
    simp only [mapExcept, List.get] at h0 ⊢
    rw [h0, hrest]
    simp [List.range_succ_eq_map, Function.comp]

/-- Write consecutive values into a buffer starting at position `start`
(one in-place `List.set` per value; out-of-range writes are no-ops, as
the modelled loops never write out of range). -/
def writeSeq (buf : List CQ) (start : ℕ) : List CQ → List CQ
  | [] => buf
  | v :: vs => writeSeq (buf.set start v) (start + 1) vs

theorem writeSeq_length (vs : List CQ) :
    ∀ (buf : List CQ) (start : ℕ), (writeSeq buf start vs).length = buf.length := by
  induction vs with
  | nil => intro buf start; rfl
  | cons v vs ih => intro buf start; rw [writeSeq, ih]; simp

theorem writeSeq_getElem?_lt (vs : List CQ) :
    ∀ (buf : List CQ) (start idx : ℕ), idx < start →
      (writeSeq buf start vs)[idx]? = buf[idx]? := by
  induction vs with
  | nil => intro buf start idx _; rfl
  | cons v vs ih =>
    intro buf start idx h
    rw [writeSeq, ih _ _ _ (by omega), List.getElem?_set_ne (by omega)]

theorem writeSeq_getElem?_ge (vs : List CQ) :
    ∀ (buf : List CQ) (start idx : ℕ), start + vs.length ≤ idx →
      (writeSeq buf start vs)[idx]? = buf[idx]? := by
  induction vs with
  | nil => intro buf start idx _; rfl
  | cons v vs ih =>
    intro buf start idx h
    simp only [List.length_cons] at h
    rw [writeSeq, ih _ _ _ (by omega), List.getElem?_set_ne (by omega)]

theorem writeSeq_getElem?_mem (vs : List CQ) :
    ∀ (buf : List CQ) (start idx : ℕ), start ≤ idx → idx < start + vs.length →
      idx < buf.length →
      (writeSeq buf start vs)[idx]? = some (vs.getD (idx - start) 0) := by
  induction vs with
  | nil => intro buf start idx h1 h2 _; simp at h2; omega
  | cons v vs ih =>
    intro buf start idx h1 h2 hlen
    rw [writeSeq]
    rcases Nat.eq_or_lt_of_le h1 with heq | hlt
    · subst heq
      rw [writeSeq_getElem?_lt vs _ _ _ (by omega)]
      simp [List.getElem?_set, hlen]
    · rw [ih _ _ _ (by omega) (by simpa [Nat.add_right_comm] using h2) (by simpa using hlen)]
      have : idx - start = (idx - (start + 1)) + 1 := by omega
      rw [this]
      rfl

/-- The residue division loop of `compute_normconsts_or_residues`:
`for i: if aprime[i] == 0 return DIV_BY_ZERO; nc[offset+i] /= aprime[i]`. -/
def divLoop (offset : ℕ) : List CQ → ℕ → List CQ → Except Err (List CQ)
  | [], _, nc => .ok nc
  | ap :: rest, i, nc =>
    if ap = 0 then .error .DivideByZero
    else divLoop offset rest (i + 1) (nc.set (offset + i) (nc.getD (offset + i) 0 / ap))

theorem divLoop_error_iff (offset : ℕ) (aps : List CQ) :
    ∀ (i : ℕ) (nc : List CQ),
      (divLoop offset aps i nc = .error .DivideByZero ↔ (0 : CQ) ∈ aps) := by
  induction aps with
  | nil => intro i nc; simp [divLoop]
  | cons ap rest ih =>
    intro i nc
    by_cases hap : ap = 0
    · subst hap; simp [divLoop]
    · rw [divLoop, if_neg hap, ih]
      simp only [List.mem_cons, iff_or_self]
      exact fun h => absurd h.symm (by simpa [eq_comm] using hap)

theorem divLoop_ok (aps : List CQ) :
    ∀ (offset i : ℕ) (nc : List CQ), (0 : CQ) ∉ aps →
      ∃ out, divLoop offset aps i nc = .ok out ∧ out.length = nc.length ∧
        ∀ idx, out[idx]? =
          if offset + i ≤ idx ∧ idx < offset + i + aps.length
          then (nc[idx]?).map (fun v => v / aps.getD (idx - (offset + i)) 0)
          else nc[idx]? := by
  induction aps with
  | nil =>
    intro offset i nc _
    refine ⟨nc, rfl, rfl, fun idx => ?_⟩
    rw [if_neg (by simp only [List.length_nil, Nat.add_zero]; omega)]
  | cons ap rest ih =>
    intro offset i nc hmem
    have hap : ap ≠ 0 := fun h => hmem (h ▸ List.mem_cons_self ap rest)
    have hrest : (0 : CQ) ∉ rest := fun h => hmem (List.mem_cons_of_mem ap h)
    set nc' := nc.set (offset + i) (nc.getD (offset + i) 0 / ap) with hnc'
    obtain ⟨out, hout, hlen, hchar⟩ := ih offset (i + 1) nc' hrest
    refine ⟨out, ?_, ?_, ?_⟩
    · rw [divLoop, if_neg hap]; exact hout
    · rw [hlen, hnc']; simp
    · intro idx
      rw [hchar idx]
      by_cases h1 : idx = offset + i
      · subst h1
        rw [if_neg (by omega), if_pos ⟨le_refl _, by simp⟩, hnc', Nat.sub_self]
        by_cases hl : offset + i < nc.length
        · have hset : (nc.set (offset + i) (nc.getD (offset + i) 0 / ap))[offset + i]?
              = some (nc.getD (offset + i) 0 / ap) := by
            simp [List.getElem?_set, hl]
          rw [hset, List.getElem?_eq_getElem hl]
          simp [List.getD_eq_getElem?_getD, List.getElem?_eq_getElem hl, List.getD_cons_zero]
        · have hge : nc.length ≤ offset + i := by omega
          rw [List.getElem?_eq_none (by simpa using hge), List.getElem?_eq_none hge]
          rfl
      · have hset : nc'[idx]? = nc[idx]? := by
          rw [hnc', List.getElem?_set_ne (by omega)]
        rw [hset]
        by_cases h2 : offset + i ≤ idx ∧ idx < offset + i + (ap :: rest).length
        · have h2' : offset + (i + 1) ≤ idx ∧ idx < offset + (i + 1) + rest.length := by
            simp only [List.length_cons] at h2; omega
          rw [if_pos h2', if_pos h2]
          have : idx - (offset + i) = (idx - (offset + (i + 1))) + 1 := by omega
          rw [this]
          rfl
        · have h2' : ¬(offset + (i + 1) ≤ idx ∧ idx < offset + (i + 1) + rest.length) := by
            simp only [List.length_cons] at h2; omega
          rw [if_neg h2', if_neg h2]

/-! ## Bound-State Solver (`refine_roots_newton`) -/

/-- The divergence guard of the Newton iteration: the updated candidate
has left the admissible region.  Mirrors, in order, the C condition
`CIMAG > im_bound_val || CREAL > re_bound_val || CREAL < -re_bound_val || CIMAG < 0`. -/
def outOfRegion (re_bound_val im_bound_val : ℚ) (z : CQ) : Prop :=
  im_bound_val < z.im ∨ re_bound_val < z.re ∨ z.re < -re_bound_val ∨ z.im < 0

instance (rb ib : ℚ) (z : CQ) : Decidable (outOfRegion rb ib z) := by
  unfold outOfRegion; infer_instance

/-- The `do { ... } while (CABS(error) > eprecision && iter < niter)` body
of `refine_roots_newton` for one candidate.  `scatterBS` is the oracle
for `nse_scatter_bound_states` (not part of this excerpt), returning
`(a(λ), a'(λ), b(λ))`; `fuel` counts the remaining loop iterations after
the current one (`niter - iter`); `eprecSq` is the squared tolerance
`eprecision^2` (the C comparison `CABS(error) > eprecision` is embedded
squared). -/
def refineGo (scatterBS : CQ → Except Err (CQ × CQ × CQ))
    (reB imB eprecSq : ℚ) : ℕ → CQ → Except Err CQ
  | fuel, lam =>
    match scatterBS lam with
    | .error _ => .error .Subroutine
    | .ok (a_val, aprime_val, _b_val) =>
      if aprime_val = 0 then .error .DivideByZero
      else
        let err := a_val / aprime_val
        let lam' := lam - err
        if outOfRegion reB imB lam' then .ok lam'
        else
          match fuel with
          | 0 => .ok lam'
          | fuel' + 1 =>
            if eprecSq < CQ.absSq err then
              refineGo scatterBS reB imB eprecSq fuel' lam'
            else .ok lam'

/-- One candidate of `refine_roots_newton`: with `niter = 0` the routine
returns without touching the candidate, otherwise the do-while loop body
runs at least once. -/
def refineOne (scatterBS : CQ → Except Err (CQ × CQ × CQ))
    (reB imB eprecSq : ℚ) (niter : ℕ) (lam : CQ) : Except Err CQ :=
  match niter with
  | 0 => .ok lam
  | niter' + 1 => refineGo scatterBS reB imB eprecSq niter' lam

/-- `refine_roots_newton` of `fnft_nsev_slow.c`: Newton refinement of the
`K` leading candidates of the buffer.  `l2` and `scatterBS` are the
oracles for `misc_l2norm2` and `nse_scatter_bound_states`; `piQ` stands
for `PI`.  The squared stopping tolerance is `(100 * EPSILON)^2`. -/
def refine_roots_newton (scatterBS : CQ → Except Err (CQ × CQ × CQ))
    (l2 : ℕ → List CQ → ℚ → ℚ → ℚ) (piQ : ℚ)
    (D : ℕ) (q : List CQ) (T0 T1 : ℚ) (K : ℕ) (bound_states : List CQ)
    (discretization : Discretization) (niter : ℕ) : Except Err (List CQ) :=
  if K = 0 then .ok bound_states
  else if niter = 0 then .ok bound_states
  else
    let D_scale := nse_discretization_D_scale discretization
    let D_given := D / D_scale
    let eps_t := (T1 - T0) / (D_given - 1 : ℕ)
    let im_bound_val := (D_scale : ℚ) ^ 2 * im_bound l2 D q T0 T1
    let re_bound_val := re_bound piQ eps_t
    let eprecSq := (EPSILON * 100) ^ 2
    match mapExcept (refineOne scatterBS re_bound_val im_bound_val eprecSq niter)
        (bound_states.take K) with
    | .error e => .error e
    | .ok refined => .ok (refined ++ bound_states.drop K)

/-- C1 (amended): whenever a Newton update lands outside the admissible
region, the iteration stops immediately and the value kept for the
candidate is that updated, out-of-region value — not the last admissible
one.  In particular an out-of-region initial guess is not returned
unmodified: with `niter ≥ 1` it still receives one Newton update
`λ ← λ − a(λ)/a'(λ)`, and the loop stops right away only because the
updated value is out of region. -/
theorem refine_newton_stops_with_updated_value_on_region_exit
    (f : CQ → Except Err (CQ × CQ × CQ)) (reB imB eprecSq : ℚ)
    (lam a ap b : CQ) (niter : ℕ)
    (hf : f lam = .ok (a, ap, b)) (hap : ap ≠ 0)
    (hout : outOfRegion reB imB (lam - a / ap)) :
    (∀ fuel, refineGo f reB imB eprecSq fuel lam = .ok (lam - a / ap))
    ∧ (1 ≤ niter → refineOne f reB imB eprecSq niter lam = .ok (lam - a / ap)) :=
  by
  have hgo : ∀ fuel, refineGo f reB imB eprecSq fuel lam = .ok (lam - a / ap) := by
    intro fuel
    rw [refineGo, hf]
    simp only [if_neg hap, if_pos hout]
  refine ⟨hgo, fun hn => ?_⟩
  match niter, hn with
  | niter' + 1, _ => exact hgo niter'

/-- Witness for `refine_newton_stops_with_updated_value_on_region_exit`
at a concrete oracle and guess. -/
theorem refine_newton_stops_with_updated_value_on_region_exit_witness :
    refineOne (fun _ => .ok (⟨0, 2⟩, 1, 0)) 100 100 1 10 ⟨0, -1⟩ = .ok ⟨0, -3⟩ := by
  have h := refine_newton_stops_with_updated_value_on_region_exit
    (fun _ => .ok (⟨0, 2⟩, 1, 0)) 100 100 1 ⟨0, -1⟩ ⟨0, 2⟩ 1 0 10
    rfl (by simp) (by simp [outOfRegion] <;> norm_num)
  have h2 := h.2 (by norm_num)
  have hval : (⟨0, -1⟩ - ⟨0, 2⟩ / 1 : CQ) = ⟨0, -3⟩ := by
    simp <;> norm_num
  rw [hval] at h2
  exact h2

/-- C1 (counterexample): a candidate guess that is out of the admissible
region before iteration begins (`im < 0`) is *not* returned unmodified —
the do-while body applies one Newton update first, and the value kept is
the updated value, which again lies outside the admissible region (so it
is not "the last admissible value" either). -/
theorem refine_newton_out_of_region_guess_is_modified :
    outOfRegion 100 100 ⟨0, -1⟩
    ∧ refineOne (fun _ => .ok (⟨0, 2⟩, 1, 0)) 100 100 1 10 ⟨0, -1⟩ = .ok ⟨0, -3⟩
    ∧ (⟨0, -3⟩ : CQ) ≠ ⟨0, -1⟩
    ∧ outOfRegion 100 100 ⟨0, -3⟩ := by
  refine ⟨?_, refine_newton_stops_with_updated_value_on_region_exit_witness, ?_, ?_⟩
  · simp [outOfRegion] <;> norm_num
  · simp <;> norm_num
  · simp [outOfRegion] <;> norm_num

/-! ## Norming-Constant/Residue Calculator (`compute_normconsts_or_residues`) -/

/-- `compute_normconsts_or_residues` of `fnft_nsev_slow.c`.  The batch
call to `nse_scatter_bound_states` (source not part of this excerpt) is
modelled by mapping the per-λ oracle `scatterBS` over the `K` leading
buffer entries; it yields `a(λ)`, `a'(λ)` and writes `b(λ)` into the
output buffer slots `[0, K)`.  For `RESIDUES`, the slots `[0, K)` are
divided in place by `a'`; for `BOTH`, the norming constants are first
copied (`memcpy`) to slots `[K, 2K)` and those are divided.  A zero
`a'` aborts with `DivideByZero`. -/
def compute_normconsts_or_residues (scatterBS : CQ → Except Err (CQ × CQ × CQ))
    (D : ℕ) (q : List CQ) (K : ℕ) (bound_states : List CQ)
    (normconsts_or_residues : List CQ) (discspec_type : DsType) :
    Except Err (List CQ) :=
  if K = 0 then .ok normconsts_or_residues
  else if D = 0 then .error .InvalidArgument
  else
    match mapExcept scatterBS (bound_states.take K) with
    | .error e => .error e
    | .ok triples =>
      let aprime_vals := triples.map (fun t => t.2.1)
      let b_vals := triples.map (fun t => t.2.2)
      let nc := writeSeq normconsts_or_residues 0 b_vals
      match discspec_type with
      | .NORMING_CONSTANTS => .ok nc
      | .RESIDUES => divLoop 0 aprime_vals 0 nc
      | .BOTH =>
        let nc2 := writeSeq nc K ((List.range K).map (fun i => nc.getD i 0))
        divLoop K aprime_vals 0 nc2

/-- C5: the residue output equals the norming constant divided by `a'(λ)`
at each retained bound state; the computation fails with `DivideByZero`
exactly when some `a'(λ) = 0`; and for the `BOTH` output kind the `K`
norming constants occupy slots `[0, K)` and the `K` residues the slots
`[K, 2K)` of the output buffer. -/
theorem compute_normconsts_residues_spec
    (scatterBS : CQ → Except Err (CQ × CQ × CQ)) (D K : ℕ)
    (q bs nc : List CQ) (dstype : DsType) (A AP B : ℕ → CQ)
    (hK : 0 < K) (hD : 0 < D) (hbs : K ≤ bs.length)
    (hf : ∀ i, i < K → scatterBS (bs.getD i 0) = .ok (A i, AP i, B i))
    (hd : dstype = .RESIDUES ∨ dstype = .BOTH) :
    (compute_normconsts_or_residues scatterBS D q K bs nc dstype
        = .error .DivideByZero ↔ ∃ i, i < K ∧ AP i = 0)
    ∧ ((∀ i, i < K → AP i ≠ 0) →
        ∃ out, compute_normconsts_or_residues scatterBS D q K bs nc dstype = .ok out
          ∧ (dstype = .RESIDUES →
              ∀ i, i < K → i < nc.length → out.getD i 0 = B i / AP i)
          ∧ (dstype = .BOTH →
              ∀ i, i < K → (i < nc.length → out.getD i 0 = B i)
                ∧ (K + i < nc.length → out.getD (K + i) 0 = B i / AP i))) := by
  have htake : (bs.take K).length = K := by
    simp [List.length_take, Nat.min_eq_left hbs]
  have hmap : mapExcept scatterBS (bs.take K)
      = .ok ((List.range K).map (fun i => (A i, AP i, B i))) := by
    have := mapExcept_ok scatterBS (fun i => (A i, AP i, B i)) (bs.take K)
      (fun i h => by
        have hiK : i < K := htake ▸ h
        have : (bs.take K).get ⟨i, h⟩ = bs.getD i 0 := by
          rw [List.get_eq_getElem, List.getElem_take, List.getD_eq_getElem _ _ (lt_of_lt_of_le hiK hbs)]
        rw [this, hf i hiK])
    rw [this, htake]
  have hKne : K ≠ 0 := Nat.pos_iff_ne_zero.mp hK
  have hDne : D ≠ 0 := Nat.pos_iff_ne_zero.mp hD
  -- the extracted a' and b value lists
  have hapv : ((List.range K).map (fun i => (A i, AP i, B i))).map
      (fun t => t.2.1) = (List.range K).map AP := by
    rw [List.map_map]; rfl
  have hbv : ((List.range K).map (fun i => (A i, AP i, B i))).map
      (fun t => t.2.2) = (List.range K).map B := by
    rw [List.map_map]; rfl
  have hmem0 : ((0 : CQ) ∈ (List.range K).map AP) ↔ ∃ i, i < K ∧ AP i = 0 := by
    simp [List.mem_map, eq_comm]
  -- the buffer after the b-write
  set nc0 := writeSeq nc 0 ((List.range K).map B) with hnc0
  have hnc0len : nc0.length = nc.length := writeSeq_length _ _ _
  have hnc0in : ∀ i, i < K → i < nc.length → nc0[i]? = some (B i) := by
    intro i hiK hilen
    rw [hnc0, writeSeq_getElem?_mem _ _ _ _ (Nat.zero_le i) (by simpa using hiK) hilen]
    simp [List.getD_eq_getElem?_getD, hiK]
  -- unfold the model at the two relevant output kinds
  have hres : compute_normconsts_or_residues scatterBS D q K bs nc .RESIDUES
      = divLoop 0 ((List.range K).map AP) 0 nc0 := by
    rw [compute_normconsts_or_residues, if_neg hKne, if_neg hDne, hmap]
    simp only [hapv, hbv]
  have hbothEq : compute_normconsts_or_residues scatterBS D q K bs nc .BOTH
      = divLoop K ((List.range K).map AP) 0
          (writeSeq nc0 K ((List.range K).map (fun i => nc0.getD i 0))) := by
    rw [compute_normconsts_or_residues, if_neg hKne, if_neg hDne, hmap]
    simp only [hapv, hbv]
  have hAPget : ∀ i, i < K → ((List.range K).map AP).getD i 0 = AP i := by
    intro i hiK
    rw [List.getD_eq_getElem?_getD, List.getElem?_map, List.getElem?_range hiK]
    rfl
  constructor
  · -- DivideByZero iff some a' is zero
    rcases hd with hd | hd <;> subst hd
    · rw [hres, divLoop_error_iff, hmem0]
    · rw [hbothEq, divLoop_error_iff, hmem0]
  · -- success case and output layout
    intro hap
    have hmem : (0 : CQ) ∉ (List.range K).map AP := by
      rw [hmem0]; rintro ⟨i, hiK, h⟩; exact hap i hiK h
    rcases hd with hd | hd <;> subst hd
    · obtain ⟨out, hout, hlen, hchar⟩ := divLoop_ok ((List.range K).map AP) 0 0 nc0 hmem
      refine ⟨out, by rw [hres]; exact hout, fun _ i hiK hilen => ?_, by simp⟩
      have hc := hchar i
      have hcond : 0 + 0 ≤ i ∧ i < 0 + 0 + ((List.range K).map AP).length :=
        ⟨by omega, by simpa using hiK⟩
      rw [if_pos hcond, hnc0in i hiK hilen] at hc
      rw [List.getD_eq_getElem?_getD, hc]
      simp only [Nat.add_zero, Nat.sub_zero]
      rw [hAPget i hiK]
      rfl
    · set nc2 := writeSeq nc0 K ((List.range K).map (fun i => nc0.getD i 0)) with hnc2
      have hnc2lo : ∀ i, i < K → nc2[i]? = nc0[i]? := by
        intro i hiK
        rw [hnc2, writeSeq_getElem?_lt _ _ _ _ hiK]
      have hnc2hi : ∀ i, i < K → K + i < nc.length → nc2[K + i]? = some (B i) := by
        intro i hiK hlen
        rw [hnc2, writeSeq_getElem?_mem _ _ _ _ (Nat.le_add_right K i)
          (by simpa using hiK) (by rwa [hnc0len])]
        have hilen : i < nc.length := by omega
        have hvals : ((List.range K).map (fun i => nc0.getD i 0)).getD (K + i - K) 0
            = B i := by
          rw [Nat.add_sub_cancel_left, List.getD_eq_getElem?_getD, List.getElem?_map,
            List.getElem?_range hiK]
          simp [List.getD_eq_getElem?_getD, hnc0in i hiK hilen]
        rw [hvals]
      obtain ⟨out, hout, hlen, hchar⟩ := divLoop_ok ((List.range K).map AP) K 0 nc2 hmem
      refine ⟨out, by rw [hbothEq]; exact hout, by simp,
        fun _ i hiK => ⟨fun hilen => ?_, fun hlen2 => ?_⟩⟩
      · have hc := hchar i
        have hcond : ¬(K + 0 ≤ i ∧ i < K + 0 + ((List.range K).map AP).length) := by
          simp only [Nat.add_zero]; omega
        rw [if_neg hcond] at hc
        rw [List.getD_eq_getElem?_getD, hc, hnc2lo i hiK, hnc0in i hiK hilen]
        rfl
      · have hc := hchar (K + i)
        have hcond : K + 0 ≤ K + i ∧ K + i < K + 0 + ((List.range K).map AP).length := by
          constructor
          · omega
          · simp only [Nat.add_zero, List.length_map, List.length_range]; omega
        rw [if_pos hcond, hnc2hi i hiK hlen2] at hc
        rw [List.getD_eq_getElem?_getD, hc]
        simp only [Nat.add_zero, Nat.add_sub_cancel_left]
        rw [hAPget i hiK]
        rfl

/-- Witness for `compute_normconsts_residues_spec` at a concrete input:
one bound state, `b = 3`, `a' = 2`, `BOTH` output kind; the norming
constant `3` lands in slot 0 and the residue `3/2` in slot 1. -/
theorem compute_normconsts_residues_spec_witness :
    ∃ out, compute_normconsts_or_residues (fun _ => .ok (⟨1, 0⟩, ⟨2, 0⟩, ⟨3, 0⟩))
        4 [] 1 [⟨0, 1⟩] [0, 0] .BOTH = .ok out
      ∧ out.getD 0 0 = ⟨3, 0⟩ ∧ out.getD 1 0 = ⟨3/2, 0⟩ := by
  obtain ⟨-, hok⟩ := compute_normconsts_residues_spec
    (fun _ => .ok (⟨1, 0⟩, ⟨2, 0⟩, ⟨3, 0⟩)) 4 1 [] [⟨0, 1⟩] [0, 0] .BOTH
    (fun _ => ⟨1, 0⟩) (fun _ => ⟨2, 0⟩) (fun _ => ⟨3, 0⟩)
    (by norm_num) (by norm_num) (by norm_num)
    (fun i _ => rfl) (Or.inr rfl)
  obtain ⟨out, hout, -, hboth⟩ := hok (fun i _ => by simp)
  refine ⟨out, hout, ?_, ?_⟩
  · exact (hboth rfl 0 (by norm_num)).1 (by norm_num)
  · have := (hboth rfl 0 (by norm_num)).2 (by norm_num)
    rw [this]
    simp <;> norm_num

/-! ## Continuous-Spectrum Assembler (lines 381–447 of `fnft_nsev_slow.c`) -/

/-- The default scattering-coefficient quadruple (never read in-bounds). -/
def d4 : CQ × CQ × CQ × CQ := (0, 0, 0, 0)

/-- The reflection-coefficient loop: for each of the remaining `n` grid
points starting at index `i`, fail with `DivideByZero` if `S11 = 0`
exactly, else write `S21 * CEXP(I*xi_i*phase) / S11` into slot `i`. -/
def reflLoop (cexp : CQ → CQ) (phase : ℚ) (xi : ℕ → ℚ)
    (coeffs : List (CQ × CQ × CQ × CQ)) : ℕ → ℕ → List CQ → Except Err (List CQ)
  | 0, _, buf => .ok buf
  | n + 1, i, buf =>
    let c := coeffs.getD i d4
    if c.1 = 0 then .error .DivideByZero
    else reflLoop cexp phase xi coeffs n (i + 1)
      (buf.set i (c.2.2.1 * cexp (CQ.iu * CQ.ofRat (xi i) * CQ.ofRat phase) / c.1))

/-- The raw-coefficient (`a`/`b`) loop: writes
`a(λ_i) = S11 * CEXP(I*xi_i*pa)` into slot `offset + i` and
`b(λ_i) = S21 * CEXP(I*xi_i*pb)` into slot `offset + M + i`. -/
def abLoop (cexp : CQ → CQ) (pa pb : ℚ) (xi : ℕ → ℚ)
    (coeffs : List (CQ × CQ × CQ × CQ)) (offset M : ℕ) :
    ℕ → ℕ → List CQ → List CQ
  | 0, _, buf => buf
  | n + 1, i, buf =>
    let c := coeffs.getD i d4
    abLoop cexp pa pb xi coeffs offset M n (i + 1)
      ((buf.set (offset + i) (c.1 * cexp (CQ.iu * CQ.ofRat (xi i) * CQ.ofRat pa))).set
        (offset + M + i) (c.2.2.1 * cexp (CQ.iu * CQ.ofRat (xi i) * CQ.ofRat pb)))

/-- The continuous-spectrum assembler of `fnft_nsev_slow_base` (the
`switch (opts->contspec_type)` block): given the engine output `coeffs`
(one `[S11,S12,S21,S22]` quadruple per grid point) it fills the caller's
`contspec` buffer.  `cexp` is the oracle for `CEXP`; the grid is
`xi_i = XI[0] + i*(XI[1]-XI[0])/(M-1)`.  For `BOTH`, the reflection
coefficient occupies slots `[0,M)` and the raw coefficients slots
`[M,3M)` (`offset = M`). -/
def contspec_compute (cexp : CQ → CQ) (M : ℕ) (XI0 XI1 T0 T1 eps_t boundary_coeff : ℚ)
    (cstype : CsType) (coeffs : List (CQ × CQ × CQ × CQ)) (buf : List CQ) :
    Except Err (List CQ) :=
  let eps_xi := (XI1 - XI0) / ((M - 1 : ℕ) : ℚ)
  let xi := fun i : ℕ => XI0 + eps_xi * (i : ℚ)
  let phase_rho := -2 * (T1 + eps_t * boundary_coeff)
  let phase_a := (T1 + eps_t * boundary_coeff) - (T0 - eps_t * boundary_coeff)
  let phase_b := -(T1 + eps_t * boundary_coeff) - (T0 - eps_t * boundary_coeff)
  match cstype with
  | .REFLECTION_COEFFICIENT => reflLoop cexp phase_rho xi coeffs M 0 buf
  | .AB => .ok (abLoop cexp phase_a phase_b xi coeffs 0 M M 0 buf)
  | .BOTH =>
    match reflLoop cexp phase_rho xi coeffs M 0 buf with
    | .error e => .error e
    | .ok buf1 => .ok (abLoop cexp phase_a phase_b xi coeffs M M M 0 buf1)

theorem reflLoop_error_iff (cexp : CQ → CQ) (phase : ℚ) (xi : ℕ → ℚ)
    (coeffs : List (CQ × CQ × CQ × CQ)) :
    ∀ (n i : ℕ) (buf : List CQ),
      (reflLoop cexp phase xi coeffs n i buf = .error .DivideByZero
        ↔ ∃ j, j < n ∧ (coeffs.getD (i + j) d4).1 = 0) := by
  intro n
  induction n with
  | zero => intro i buf; simp [reflLoop]
  | succ n ih =>
    intro i buf
    rw [reflLoop]
    by_cases hz : (coeffs.getD i d4).1 = 0
    · rw [if_pos hz]
      constructor
      · intro _; exact ⟨0, Nat.succ_pos n, by simpa using hz⟩
      · intro _; rfl
    · rw [if_neg hz, ih]
      constructor
      · rintro ⟨j, hj, h⟩
        refine ⟨j + 1, by omega, ?_⟩
        have he : i + (j + 1) = i + 1 + j := by omega
        rw [he]; exact h
      · rintro ⟨j, hj, h⟩
        match j with
        | 0 => exact absurd (by simpa using h) hz
        | j' + 1 =>
          refine ⟨j', by omega, ?_⟩
          have he : i + 1 + j' = i + (j' + 1) := by omega
          rw [he]; exact h

theorem reflLoop_ok (cexp : CQ → CQ) (phase : ℚ) (xi : ℕ → ℚ)
    (coeffs : List (CQ × CQ × CQ × CQ)) :
    ∀ (n i : ℕ) (buf : List CQ), (∀ j, j < n → (coeffs.getD (i + j) d4).1 ≠ 0) →
      ∃ out, reflLoop cexp phase xi coeffs n i buf = .ok out
        ∧ out.length = buf.length
        ∧ ∀ idx, out[idx]? =
            if i ≤ idx ∧ idx < i + n ∧ idx < buf.length
            then some ((coeffs.getD idx d4).2.2.1
              * cexp (CQ.iu * CQ.ofRat (xi idx) * CQ.ofRat phase) / (coeffs.getD idx d4).1)
            else buf[idx]? := by
  intro n
  induction n with
  | zero =>
    intro i buf _
    exact ⟨buf, rfl, rfl, fun idx => by rw [if_neg (by omega)]⟩
  | succ n ih =>
    intro i buf h
    have hz : (coeffs.getD i d4).1 ≠ 0 := by
      have := h 0 (Nat.succ_pos n); simpa using this
    rw [reflLoop, if_neg hz]
    set v := (coeffs.getD i d4).2.2.1
      * cexp (CQ.iu * CQ.ofRat (xi i) * CQ.ofRat phase) / (coeffs.getD i d4).1 with hv
    obtain ⟨out, hout, hlen, hchar⟩ := ih (i + 1) (buf.set i v)
      (fun j hj => by
        have := h (j + 1) (by omega)
        have he : i + (j + 1) = i + 1 + j := by omega
        rwa [he] at this)
    refine ⟨out, hout, by rw [hlen]; simp, fun idx => ?_⟩
    rw [hchar idx]
    by_cases hidx : idx = i
    · subst hidx
      rw [if_neg (by omega)]
      by_cases hl : idx < buf.length
      · rw [if_pos ⟨le_refl idx, by omega, hl⟩]
        simp [List.getElem?_set, hl, hv]
      · rw [if_neg (fun hc => hl hc.2.2)]
        rw [List.getElem?_eq_none (by simpa using Nat.le_of_not_lt hl),
          List.getElem?_eq_none (Nat.le_of_not_lt hl)]
    · rw [List.getElem?_set_ne (fun hh => hidx hh.symm), List.length_set]
      by_cases hc : i + 1 ≤ idx ∧ idx < i + 1 + n ∧ idx < buf.length
      · rw [if_pos hc, if_pos (by omega)]
      · rw [if_neg hc, if_neg (by omega)]

theorem abLoop_length (cexp : CQ → CQ) (pa pb : ℚ) (xi : ℕ → ℚ)
    (coeffs : List (CQ × CQ × CQ × CQ)) (offset M : ℕ) :
    ∀ (n i : ℕ) (buf : List CQ),
      (abLoop cexp pa pb xi coeffs offset M n i buf).length = buf.length := by
  intro n
  induction n with
  | zero => intro i buf; rfl
  | succ n ih => intro i buf; rw [abLoop, ih]; simp

theorem abLoop_untouched (cexp : CQ → CQ) (pa pb : ℚ) (xi : ℕ → ℚ)
    (coeffs : List (CQ × CQ × CQ × CQ)) (offset M : ℕ) :
    ∀ (n i : ℕ) (buf : List CQ) (idx : ℕ),
      (∀ j, i ≤ j → j < i + n → idx ≠ offset + j ∧ idx ≠ offset + M + j) →
      (abLoop cexp pa pb xi coeffs offset M n i buf)[idx]? = buf[idx]? := by
  intro n
  induction n with
  | zero => intro i buf idx _; rfl
  | succ n ih =>
    intro i buf idx h
    have hi := h i (le_refl i) (by omega)
    rw [abLoop, ih (i + 1) _ idx (fun j hj hj2 => h j (by omega) (by omega)),
      List.getElem?_set_ne (fun hh => hi.2 hh.symm),
      List.getElem?_set_ne (fun hh => hi.1 hh.symm)]

theorem abLoop_a_val (cexp : CQ → CQ) (pa pb : ℚ) (xi : ℕ → ℚ)
    (coeffs : List (CQ × CQ × CQ × CQ)) (offset M : ℕ) :
    ∀ (n i : ℕ) (buf : List CQ) (j : ℕ), i ≤ j → j < i + n → i + n ≤ M →
      offset + j < buf.length →
      (abLoop cexp pa pb xi coeffs offset M n i buf)[offset + j]?
        = some ((coeffs.getD j d4).1 * cexp (CQ.iu * CQ.ofRat (xi j) * CQ.ofRat pa)) := by
  intro n
  induction n with
  | zero => intro i buf j h1 h2 _ _; omega
  | succ n ih =>
    intro i buf j h1 h2 hM hlen
    rw [abLoop]
    rcases Nat.eq_or_lt_of_le h1 with heq | hlt
    · subst heq
      rw [abLoop_untouched cexp pa pb xi coeffs offset M n (i + 1) _ (offset + i)
        (fun j' hj' hj'2 => ⟨by omega, by omega⟩)]
      rw [List.getElem?_set_ne (by omega)]
      simp [List.getElem?_set, hlen]
    · exact ih (i + 1) _ j hlt (by omega) (by omega) (by simpa using hlen)

theorem abLoop_b_val (cexp : CQ → CQ) (pa pb : ℚ) (xi : ℕ → ℚ)
    (coeffs : List (CQ × CQ × CQ × CQ)) (offset M : ℕ) :
    ∀ (n i : ℕ) (buf : List CQ) (j : ℕ), i ≤ j → j < i + n → i + n ≤ M →
      offset + M + j < buf.length →
      (abLoop cexp pa pb xi coeffs offset M n i buf)[offset + M + j]?
        = some ((coeffs.getD j d4).2.2.1 * cexp (CQ.iu * CQ.ofRat (xi j) * CQ.ofRat pb)) := by
  intro n
  induction n with
  | zero => intro i buf j h1 h2 _ _; omega
  | succ n ih =>
    intro i buf j h1 h2 hM hlen
    rw [abLoop]
    rcases Nat.eq_or_lt_of_le h1 with heq | hlt
    · subst heq
      rw [abLoop_untouched cexp pa pb xi coeffs offset M n (i + 1) _ (offset + M + i)
        (fun j' hj' hj'2 => ⟨by omega, by omega⟩)]
      have hlen' : offset + M + i < (buf.set (offset + i)
          ((coeffs.getD i d4).1 * cexp (CQ.iu * CQ.ofRat (xi i) * CQ.ofRat pa))).length := by
        simpa using hlen
      simp [List.getElem?_set, hlen', hlen]
    · exact ih (i + 1) _ j hlt (by omega) (by omega) (by simpa using hlen)

/-- C3: the continuous-spectrum assembler.  With the reflection
coefficient requested, slot `i` receives
`S21(λ_i) * CEXP(I*λ_i*φ_ρ) / S11(λ_i)` with
`φ_ρ = -2*(T[1] + eps_t*boundary_coeff)`, and the call fails with
`DivideByZero` exactly when `S11(λ_i) = 0` for some grid point; with the
raw coefficients requested it always succeeds and writes
`a(λ_i) = S11(λ_i)*CEXP(I*λ_i*φ_a)` to slot `i` and
`b(λ_i) = S21(λ_i)*CEXP(I*λ_i*φ_b)` to slot `M + i`, with
`φ_a = (T[1]+eps_t*bc) - (T[0]-eps_t*bc)` and
`φ_b = -(T[1]+eps_t*bc) - (T[0]-eps_t*bc)`; the grid is
`λ_i = XI[0] + i*(XI[1]-XI[0])/(M-1)`. -/
theorem contspec_assembler_spec (cexp : CQ → CQ) (M : ℕ)
    (XI0 XI1 T0 T1 eps_t bc : ℚ) (coeffs : List (CQ × CQ × CQ × CQ)) (buf : List CQ) :
    (contspec_compute cexp M XI0 XI1 T0 T1 eps_t bc .REFLECTION_COEFFICIENT coeffs buf
        = .error .DivideByZero ↔ ∃ i, i < M ∧ (coeffs.getD i d4).1 = 0)
    ∧ ((∀ i, i < M → (coeffs.getD i d4).1 ≠ 0) →
        ∃ out, contspec_compute cexp M XI0 XI1 T0 T1 eps_t bc
            .REFLECTION_COEFFICIENT coeffs buf = .ok out
          ∧ ∀ i, i < M → i < buf.length →
              out.getD i 0 = (coeffs.getD i d4).2.2.1
                * cexp (CQ.iu * CQ.ofRat (XI0 + (XI1 - XI0) / ((M - 1 : ℕ) : ℚ) * (i : ℚ))
                    * CQ.ofRat (-2 * (T1 + eps_t * bc)))
                / (coeffs.getD i d4).1)
    ∧ (∃ out, contspec_compute cexp M XI0 XI1 T0 T1 eps_t bc .AB coeffs buf = .ok out
        ∧ ∀ i, i < M →
            (i < buf.length →
              out.getD i 0 = (coeffs.getD i d4).1
                * cexp (CQ.iu * CQ.ofRat (XI0 + (XI1 - XI0) / ((M - 1 : ℕ) : ℚ) * (i : ℚ))
                    * CQ.ofRat ((T1 + eps_t * bc) - (T0 - eps_t * bc))))
            ∧ (M + i < buf.length →
              out.getD (M + i) 0 = (coeffs.getD i d4).2.2.1
                * cexp (CQ.iu * CQ.ofRat (XI0 + (XI1 - XI0) / ((M - 1 : ℕ) : ℚ) * (i : ℚ))
                    * CQ.ofRat (-(T1 + eps_t * bc) - (T0 - eps_t * bc))))) := by
  refine ⟨?_, ?_, ?_⟩
  · rw [contspec_compute, reflLoop_error_iff]
    constructor
    · rintro ⟨j, hj, h⟩; exact ⟨j, hj, by simpa using h⟩
    · rintro ⟨j, hj, h⟩; exact ⟨j, hj, by simpa using h⟩
  · intro hz
    obtain ⟨out, hout, hlen, hchar⟩ := reflLoop_ok cexp
      (-2 * (T1 + eps_t * bc))
      (fun i : ℕ => XI0 + (XI1 - XI0) / ((M - 1 : ℕ) : ℚ) * (i : ℚ)) coeffs M 0 buf
      (fun j hj => by simpa using hz j hj)
    refine ⟨out, by rw [contspec_compute]; exact hout, fun i hiM hilen => ?_⟩
    have hc := hchar i
    rw [if_pos ⟨Nat.zero_le i, by omega, hilen⟩] at hc
    rw [List.getD_eq_getElem?_getD, hc]
    rfl
  · refine ⟨abLoop cexp ((T1 + eps_t * bc) - (T0 - eps_t * bc))
      (-(T1 + eps_t * bc) - (T0 - eps_t * bc))
      (fun i : ℕ => XI0 + (XI1 - XI0) / ((M - 1 : ℕ) : ℚ) * (i : ℚ)) coeffs 0 M M 0 buf,
      rfl, fun i hiM => ⟨fun hilen => ?_, fun hlen2 => ?_⟩⟩
    · have := abLoop_a_val cexp ((T1 + eps_t * bc) - (T0 - eps_t * bc))
        (-(T1 + eps_t * bc) - (T0 - eps_t * bc))
        (fun i : ℕ => XI0 + (XI1 - XI0) / ((M - 1 : ℕ) : ℚ) * (i : ℚ)) coeffs 0 M M 0 buf i
        (Nat.zero_le i) (by omega) (by omega) (by simpa using hilen)
      rw [List.getD_eq_getElem?_getD]
      simp only [Nat.zero_add] at this
      rw [this]
      rfl
    · have := abLoop_b_val cexp ((T1 + eps_t * bc) - (T0 - eps_t * bc))
        (-(T1 + eps_t * bc) - (T0 - eps_t * bc))
        (fun i : ℕ => XI0 + (XI1 - XI0) / ((M - 1 : ℕ) : ℚ) * (i : ℚ)) coeffs 0 M M 0 buf i
        (Nat.zero_le i) (by omega) (by omega) (by simpa using hlen2)
      rw [List.getD_eq_getElem?_getD]
      simp only [Nat.zero_add] at this
      rw [this]
      rfl

/-- Witness for `contspec_assembler_spec` at a concrete grid: `M = 2`,
unit scattering data, `cexp` instantiated as the identity oracle. -/
theorem contspec_assembler_spec_witness :
    ∃ out, contspec_compute (fun z => z) 2 3 4 0 1 1 0
        .REFLECTION_COEFFICIENT [(⟨1, 0⟩, 0, ⟨5, 0⟩, 0), (⟨1, 0⟩, 0, ⟨7, 0⟩, 0)] [0, 0]
        = .ok out
      ∧ out.getD 0 0 = ⟨0, -30⟩ := by
  obtain ⟨-, hrefl, -⟩ := contspec_assembler_spec (fun z => z) 2 3 4 0 1 1 0
    [(⟨1, 0⟩, 0, ⟨5, 0⟩, 0), (⟨1, 0⟩, 0, ⟨7, 0⟩, 0)] [0, 0]
  obtain ⟨out, hout, hval⟩ := hrefl (by
    intro i hi
    match i, hi with
    | 0, _ => simp [d4]
    | 1, _ => simp [d4])
  refine ⟨out, hout, ?_⟩
  have h0 := hval 0 (by norm_num) (by norm_num)
  rw [h0]
  simp [d4, CQ.ofRat, CQ.iu] <;> norm_num

/-! ## Richardson step on the continuous spectrum (lines 271–281) -/

/-- Generic: a left fold of in-place updates `b[φ j] ← f j b[φ j]` leaves
every position outside the image of `φ` unchanged. -/
theorem foldl_set_untouched (φ : ℕ → ℕ) (f : ℕ → CQ → CQ) :
    ∀ (js : List ℕ) (buf : List CQ) (idx : ℕ), (∀ j ∈ js, φ j ≠ idx) →
      (js.foldl (fun b j => b.set (φ j) (f j (b.getD (φ j) 0))) buf)[idx]? = buf[idx]? := by
  intro js
  induction js with
  | nil => intro buf idx _; rfl
  | cons j rest ih =>
    intro buf idx h
    rw [List.foldl_cons, ih _ _ (fun j' hj' => h j' (List.mem_cons_of_mem j hj')),
      List.getElem?_set_ne (h j (List.mem_cons_self j rest))]

/-- Generic: the fold of in-place updates preserves the buffer length. -/
theorem foldl_set_length (φ : ℕ → ℕ) (f : ℕ → CQ → CQ) :
    ∀ (js : List ℕ) (buf : List CQ),
      (js.foldl (fun b j => b.set (φ j) (f j (b.getD (φ j) 0))) buf).length
        = buf.length := by
  intro js
  induction js with
  | nil => intro buf; rfl
  | cons j rest ih => intro buf; rw [List.foldl_cons, ih]; simp

/-- Generic: at a position hit exactly once, the fold applies its update
to the original cell value. -/
theorem foldl_set_touched (φ : ℕ → ℕ) (f : ℕ → CQ → CQ) :
    ∀ (js : List ℕ) (buf : List CQ) (j0 : ℕ), j0 ∈ js → js.Nodup →
      (∀ j ∈ js, φ j = φ j0 → j = j0) → φ j0 < buf.length →
      (js.foldl (fun b j => b.set (φ j) (f j (b.getD (φ j) 0))) buf)[φ j0]?
        = some (f j0 (buf.getD (φ j0) 0)) := by
  intro js
  induction js with
  | nil => intro buf j0 hmem; exact absurd hmem (List.not_mem_nil j0)
  | cons j rest ih =>
    intro buf j0 hmem hnd hinj hlen
    rw [List.foldl_cons]
    by_cases heq : j = j0
    · subst heq
      have hnotin : j ∉ rest := (List.nodup_cons.mp hnd).1
      rw [foldl_set_untouched φ f rest _ (φ j) (fun j' hj' hphi =>
        hnotin ((hinj j' (List.mem_cons_of_mem j hj') hphi) ▸ hj'))]
      simp [List.getElem?_set, hlen]
    · have hj0rest : j0 ∈ rest := by
        rcases List.mem_cons.mp hmem with h | h
        · exact absurd h.symm heq
        · exact h
      have hphi_ne : φ j ≠ φ j0 := fun hphi =>
        heq (hinj j (List.mem_cons_self j rest) hphi)
      rw [ih _ j0 hj0rest (List.nodup_cons.mp hnd).2
        (fun j' hj' => hinj j' (List.mem_cons_of_mem j hj')) (by simpa using hlen)]
      rw [List.getD_eq_getElem?_getD, List.getElem?_set_ne hphi_ne,
        ← List.getD_eq_getElem?_getD]

/-- The inner Richardson loop `for (j=0; j<contspec_len; j+=M)` on the
grid point `i`: `contspec[i+j] ← (scl_num*contspec[i+j] - contspec_sub[i+j])/scl_den`. -/
def rcsInner (contspec_len M : ℕ) (scl_num scl_den : ℚ) (contspec_sub : List CQ)
    (i : ℕ) (buf : List CQ) : List CQ :=
  (List.range ((contspec_len + M - 1) / M)).foldl
    (fun b jk => b.set (i + jk * M)
      ((CQ.ofRat scl_num * b.getD (i + jk * M) 0 - contspec_sub.getD (i + jk * M) 0)
        / CQ.ofRat scl_den)) buf

/-- The Richardson combination step on the continuous spectrum
(`fnft_nsev_slow`, lines 273–281): every grid point `i` with
`|XI[0]+dxi*i| < 0.9*PI/(2*eps_t_sub)` is recombined across all
`M`-strided output blocks; all other grid points keep the
full-resolution value.  `piQ` stands for `PI`. -/
def richardson_contspec_step (M contspec_len : ℕ) (XI0 XI1 eps_t_sub piQ scl_num : ℚ)
    (contspec_sub : List CQ) (contspec : List CQ) : List CQ :=
  let dxi := (XI1 - XI0) / ((M - 1 : ℕ) : ℚ)
  let scl_den := scl_num - 1
  (List.range M).foldl (fun buf (i : ℕ) =>
    if |XI0 + dxi * (i : ℚ)| < 9 / 10 * piQ / (2 * eps_t_sub) then
      rcsInner contspec_len M scl_num scl_den contspec_sub i buf
    else buf) contspec

theorem mem_jkRange (M clen jk : ℕ) (hM : 0 < M) :
    jk ∈ List.range ((clen + M - 1) / M) ↔ jk * M < clen := by
  rw [List.mem_range]
  constructor
  · intro h
    have h2 := (Nat.le_div_iff_mul_le hM).mp (Nat.succ_le_of_lt h)
    rw [Nat.succ_mul] at h2
    omega
  · intro h
    apply Nat.lt_of_succ_le
    rw [Nat.le_div_iff_mul_le hM, Nat.succ_mul]
    omega

theorem rcsInner_untouched (clen M : ℕ) (sn sd : ℚ) (sub : List CQ) (i : ℕ)
    (buf : List CQ) (idx : ℕ) (hM : 0 < M)
    (h : ∀ jk, jk * M < clen → idx ≠ i + jk * M) :
    (rcsInner clen M sn sd sub i buf)[idx]? = buf[idx]? := by
  rw [rcsInner]
  exact foldl_set_untouched (fun jk => i + jk * M)
    (fun jk v => (CQ.ofRat sn * v - sub.getD (i + jk * M) 0) / CQ.ofRat sd) _ buf idx
    (fun jk hjk hphi => h jk ((mem_jkRange M clen jk hM).mp hjk) hphi.symm)

theorem rcsInner_length (clen M : ℕ) (sn sd : ℚ) (sub : List CQ) (i : ℕ)
    (buf : List CQ) : (rcsInner clen M sn sd sub i buf).length = buf.length := by
  rw [rcsInner]
  exact foldl_set_length (fun jk => i + jk * M)
    (fun jk v => (CQ.ofRat sn * v - sub.getD (i + jk * M) 0) / CQ.ofRat sd) _ buf

theorem rcsInner_touched (clen M : ℕ) (sn sd : ℚ) (sub : List CQ) (i : ℕ)
    (buf : List CQ) (jk0 : ℕ) (hM : 0 < M) (hin : jk0 * M < clen)
    (hlen : i + jk0 * M < buf.length) :
    (rcsInner clen M sn sd sub i buf)[i + jk0 * M]?
      = some ((CQ.ofRat sn * buf.getD (i + jk0 * M) 0 - sub.getD (i + jk0 * M) 0)
          / CQ.ofRat sd) := by
  rw [rcsInner]
  exact foldl_set_touched (fun jk => i + jk * M)
    (fun jk v => (CQ.ofRat sn * v - sub.getD (i + jk * M) 0) / CQ.ofRat sd)
    _ buf jk0 ((mem_jkRange M clen jk0 hM).mpr hin) (List.nodup_range _)
    (fun j _ hphi => by
      have h2 : i + j * M = i + jk0 * M := hphi
      exact Nat.eq_of_mul_eq_mul_right hM (by omega)) hlen

theorem richardson_outer_untouched (clen M : ℕ) (cond : ℕ → Prop)
    [DecidablePred cond] (sn sd : ℚ) (sub : List CQ) (hM : 0 < M) :
    ∀ (is : List ℕ) (buf : List CQ) (idx : ℕ),
      (∀ i ∈ is, ∀ jk, jk * M < clen → idx ≠ i + jk * M) →
      (is.foldl (fun b i => if cond i then rcsInner clen M sn sd sub i b else b)
        buf)[idx]? = buf[idx]? := by
  intro is
  induction is with
  | nil => intro buf idx _; rfl
  | cons i rest ih =>
    intro buf idx h
    rw [List.foldl_cons, ih _ _ (fun i' hi' => h i' (List.mem_cons_of_mem i hi'))]
    by_cases hc : cond i
    · rw [if_pos hc, rcsInner_untouched clen M sn sd sub i buf idx hM
        (h i (List.mem_cons_self i rest))]
    · rw [if_neg hc]

theorem richardson_outer_length (clen M : ℕ) (cond : ℕ → Prop)
    [DecidablePred cond] (sn sd : ℚ) (sub : List CQ) :
    ∀ (is : List ℕ) (buf : List CQ),
      (is.foldl (fun b i => if cond i then rcsInner clen M sn sd sub i b else b)
        buf).length = buf.length := by
  intro is
  induction is with
  | nil => intro buf; rfl
  | cons i rest ih =>
    intro buf
    rw [List.foldl_cons, ih]
    by_cases hc : cond i
    · rw [if_pos hc, rcsInner_length]
    · rw [if_neg hc]

theorem richardson_outer_eval (clen M : ℕ) (cond : ℕ → Prop)
    [DecidablePred cond] (sn sd : ℚ) (sub : List CQ) (hM : 0 < M) :
    ∀ (is : List ℕ) (buf : List CQ) (i0 jk0 : ℕ), i0 ∈ is → is.Nodup →
      (∀ i ∈ is, i < M) → i0 + jk0 * M < clen → i0 + jk0 * M < buf.length →
      (is.foldl (fun b i => if cond i then rcsInner clen M sn sd sub i b else b)
          buf)[i0 + jk0 * M]?
        = if cond i0
          then some ((CQ.ofRat sn * buf.getD (i0 + jk0 * M) 0
              - sub.getD (i0 + jk0 * M) 0) / CQ.ofRat sd)
          else buf[i0 + jk0 * M]? := by
  intro is
  induction is with
  | nil => intro buf i0 jk0 hmem; exact absurd hmem (List.not_mem_nil i0)
  | cons i rest ih =>
    intro buf i0 jk0 hmem hnd hlt hclen hlen
    have hres : ∀ i' jk, i' < M → i0 < M → i0 + jk0 * M = i' + jk * M → i' = i0 := by
      intro i' jk hi' hi0 he
      have hmod := congrArg (fun t => t % M) he
      simp only [Nat.add_mul_mod_self_right] at hmod
      rw [Nat.mod_eq_of_lt hi0, Nat.mod_eq_of_lt hi'] at hmod
      exact hmod.symm
    have hi0M : i0 < M := hlt i0 hmem
    rw [List.foldl_cons]
    by_cases heq : i = i0
    · subst heq
      have hnotin : i ∉ rest := (List.nodup_cons.mp hnd).1
      rw [richardson_outer_untouched clen M cond sn sd sub hM rest _ _
        (fun i' hi' jk hjk he =>
          hnotin ((hres i' jk (hlt i' (List.mem_cons_of_mem i hi')) hi0M he) ▸ hi'))]
      by_cases hc : cond i
      · rw [if_pos hc, if_pos hc,
          rcsInner_touched clen M sn sd sub i buf jk0 hM (by omega) hlen]
      · rw [if_neg hc, if_neg hc]
    · have hj0rest : i0 ∈ rest := by
        rcases List.mem_cons.mp hmem with h | h
        · exact absurd h.symm heq
        · exact h
      have hbody : ∀ b : List CQ,
          ((if cond i then rcsInner clen M sn sd sub i b else b))[i0 + jk0 * M]?
            = b[i0 + jk0 * M]? := by
        intro b
        by_cases hc : cond i
        · rw [if_pos hc, rcsInner_untouched clen M sn sd sub i b _ hM
            (fun jk hjk he => heq (hres i jk (hlt i (List.mem_cons_self i rest)) hi0M he))]
        · rw [if_neg hc]
      have hlen' : i0 + jk0 * M
          < ((if cond i then rcsInner clen M sn sd sub i buf else buf)).length := by
        by_cases hc : cond i
        · rw [if_pos hc, rcsInner_length]; exact hlen
        · rw [if_neg hc]; exact hlen
      rw [ih _ i0 jk0 hj0rest (List.nodup_cons.mp hnd).2
        (fun i' hi' => hlt i' (List.mem_cons_of_mem i hi')) hclen hlen',
        List.getD_eq_getElem?_getD, hbody buf, ← List.getD_eq_getElem?_getD]

/-- C4: the Richardson combination on the continuous spectrum.  Each grid
point `λ_i = XI[0] + i*dxi` with `|λ_i|` strictly inside
`0.9*PI/(2*eps_t_sub)` (90% of the sub-run Nyquist limit) is replaced by
`(s*value_full - value_sub)/(s-1)` with `s = (D/Dsub)^order`, in every
`M`-strided output block; every other grid point keeps the
full-resolution value. -/
theorem richardson_contspec_combination (M contspec_len : ℕ)
    (XI0 XI1 eps_t_sub piQ : ℚ) (D Dsub order : ℕ)
    (contspec_sub contspec : List CQ)
    (hM : 0 < M) (hlen : contspec.length = contspec_len) :
    ∀ i jk, i < M → i + jk * M < contspec_len →
      (richardson_contspec_step M contspec_len XI0 XI1 eps_t_sub piQ
          (((D : ℚ) / (Dsub : ℚ)) ^ order) contspec_sub contspec).getD (i + jk * M) 0
        = if |XI0 + (XI1 - XI0) / ((M - 1 : ℕ) : ℚ) * (i : ℚ)|
              < 9 / 10 * piQ / (2 * eps_t_sub)
          then (CQ.ofRat (((D : ℚ) / (Dsub : ℚ)) ^ order)
                * contspec.getD (i + jk * M) 0 - contspec_sub.getD (i + jk * M) 0)
              / CQ.ofRat ((((D : ℚ) / (Dsub : ℚ)) ^ order) - 1)
          else contspec.getD (i + jk * M) 0 := by
  intro i jk hiM hidx
  have hix : (richardson_contspec_step M contspec_len XI0 XI1 eps_t_sub piQ
      (((D : ℚ) / (Dsub : ℚ)) ^ order) contspec_sub contspec)[i + jk * M]?
      = if |XI0 + (XI1 - XI0) / ((M - 1 : ℕ) : ℚ) * (i : ℚ)|
            < 9 / 10 * piQ / (2 * eps_t_sub)
        then some ((CQ.ofRat (((D : ℚ) / (Dsub : ℚ)) ^ order)
              * contspec.getD (i + jk * M) 0 - contspec_sub.getD (i + jk * M) 0)
            / CQ.ofRat ((((D : ℚ) / (Dsub : ℚ)) ^ order) - 1))
        else contspec[i + jk * M]? := by
    rw [richardson_contspec_step]
    exact richardson_outer_eval contspec_len M
      (fun n : ℕ => |XI0 + (XI1 - XI0) / ((M - 1 : ℕ) : ℚ) * (n : ℚ)|
        < 9 / 10 * piQ / (2 * eps_t_sub))
      (((D : ℚ) / (Dsub : ℚ)) ^ order) ((((D : ℚ) / (Dsub : ℚ)) ^ order) - 1)
      contspec_sub hM (List.range M) contspec i jk (List.mem_range.mpr hiM)
      (List.nodup_range M) (fun i' hi' => List.mem_range.mp hi') hidx (by omega)
  rw [List.getD_eq_getElem?_getD, hix]
  by_cases hc : |XI0 + (XI1 - XI0) / ((M - 1 : ℕ) : ℚ) * (i : ℚ)|
      < 9 / 10 * piQ / (2 * eps_t_sub)
  · rw [if_pos hc, if_pos hc]; rfl
  · rw [if_neg hc, if_neg hc, ← List.getD_eq_getElem?_getD]

/-- Witness for `richardson_contspec_combination`: one grid point inside
the Nyquist window, `s = (4/2)^1 = 2`, full value `1`, sub value `0`;
the combined value is `(2*1 - 0)/(2-1) = 2`. -/
theorem richardson_contspec_combination_witness :
    (richardson_contspec_step 1 1 0 1 1 3 ((((4 : ℕ) : ℚ) / ((2 : ℕ) : ℚ)) ^ (1 : ℕ))
        [0] [⟨1, 0⟩]).getD 0 0 = ⟨2, 0⟩ := by
  have h := richardson_contspec_combination 1 1 0 1 1 3 4 2 1 [0] [⟨1, 0⟩]
    (by norm_num) (by norm_num) 0 0 (by norm_num) (by norm_num)
  have hidx : (0 : ℕ) + 0 * 1 = 0 := rfl
  rw [hidx] at h
  rw [h, if_pos (by norm_num)]
  simp [CQ.ofRat] <;> norm_num

/-! ## Richardson step on the bound states (lines 282–311) -/

theorem getD_set_self (l : List CQ) (n : ℕ) (v : CQ) (h : n < l.length) :
    (l.set n v).getD n 0 = v := by
  rw [List.getD_eq_getElem?_getD]
  simp [List.getElem?_set, h]

theorem getD_set_ne (l : List CQ) (n m : ℕ) (v : CQ) (h : n ≠ m) :
    (l.set n v).getD m 0 = l.getD m 0 := by
  rw [List.getD_eq_getElem?_getD, List.getElem?_set_ne h, ← List.getD_eq_getElem?_getD]

/-- One comparison of the nearest-match search: from the sentinel state
(`none`, threshold still `eps_t`) a candidate is accepted if its squared
relative error beats `eps_t^2 * denSq`; from a matched state it must beat
the current best. -/
def bsFindStep (eps_t denSq : ℚ) (numsSq : ℕ → ℚ) (st : Option (ℚ × ℕ)) (j : ℕ) :
    Option (ℚ × ℕ) :=
  match st with
  | none => if numsSq j < eps_t ^ 2 * denSq then some (numsSq j, j) else none
  | some (best, loc) => if numsSq j < best then some (numsSq j, j) else some (best, loc)

theorem bsFindStep_none (eps_t denSq : ℚ) (numsSq : ℕ → ℚ) (j : ℕ) :
    bsFindStep eps_t denSq numsSq none j
      = if numsSq j < eps_t ^ 2 * denSq then some (numsSq j, j) else none := rfl

theorem bsFindStep_some (eps_t denSq : ℚ) (numsSq : ℕ → ℚ) (b : ℚ) (l j : ℕ) :
    bsFindStep eps_t denSq numsSq (some (b, l)) j
      = if numsSq j < b then some (numsSq j, j) else some (b, l) := rfl

/-- The nearest-match search of the Richardson bound-state step: the C
loop keeps `loc` (sentinel `K_sub` = no match, modelled as `none`) and
the running threshold `bs_err_thres` (initially `eps_t`, afterwards the
best relative error so far).  All compared quantities share the
denominator `CABS(bound_states[i])`, so the comparisons are embedded
cross-multiplied and squared: `numsSq j < eps_t^2 * denSq` models
`CABS(diff_j)/CABS(bs_i) < eps_t` (also reproducing the IEEE outcome
`false` when `bs_i = 0`), and `numsSq j < bestSq` models the comparison
against the current best relative error. -/
def bsFindLoop (eps_t denSq : ℚ) (numsSq : ℕ → ℚ) (K_sub : ℕ) : Option (ℚ × ℕ) :=
  (List.range K_sub).foldl (bsFindStep eps_t denSq numsSq) none

/-- One iteration (index `i`) of the Richardson bound-state loop; the
state is `(bound_states, normconsts_or_residues_reserve,
normconsts_or_residues_sub)`.  On a match: extrapolate the eigenvalue
and, when residues are involved (`dsflag`), convert residues to `a'`,
extrapolate `a'`, and convert back. -/
def bsStep (eps_t scl_num : ℚ) (K K_sub : ℕ) (bs_sub : List CQ) (dsflag : Bool)
    (st : List CQ × List CQ × List CQ) (i : ℕ) : List CQ × List CQ × List CQ :=
  match st with
  | (bs, res, res_sub) =>
    let denSq := CQ.absSq (bs.getD i 0)
    match bsFindLoop eps_t denSq
        (fun j => CQ.absSq (bs.getD i 0 - bs_sub.getD j 0)) K_sub with
    | none => (bs, res, res_sub)
    | some (_, loc) =>
      let bs' := bs.set i ((CQ.ofRat scl_num * bs.getD i 0 - bs_sub.getD loc 0)
          / CQ.ofRat (scl_num - 1))
      if dsflag then
        let res1 := res.set (K + i) (res.getD i 0 / res.getD (K + i) 0)
        let res_sub1 := res_sub.set (K_sub + loc)
            (res_sub.getD loc 0 / res_sub.getD (K_sub + loc) 0)
        let res2 := res1.set (K + i)
            ((CQ.ofRat scl_num * res1.getD (K + i) 0 - res_sub1.getD (loc + K_sub) 0)
              / CQ.ofRat (scl_num - 1))
        let res3 := res2.set (K + i) (res2.getD i 0 / res2.getD (K + i) 0)
        (bs', res3, res_sub1)
      else (bs', res, res_sub)

/-- The Richardson bound-state step (`for (i=0; i<K; i++)` of
`fnft_nsev_slow`, lines 289–311). -/
def richardson_bs_step (eps_t scl_num : ℚ) (K K_sub : ℕ) (bs_sub : List CQ)
    (dsflag : Bool) (bs res res_sub : List CQ) : List CQ × List CQ × List CQ :=
  (List.range K).foldl (bsStep eps_t scl_num K K_sub bs_sub dsflag) (bs, res, res_sub)

theorem bsFind_go_some (eps_t denSq : ℚ) (numsSq : ℕ → ℚ) :
    ∀ (js : List ℕ) (b : ℚ) (l : ℕ),
      ∃ v loc, js.foldl (bsFindStep eps_t denSq numsSq) (some (b, l)) = some (v, loc)
        ∧ ((v = b ∧ loc = l) ∨ (loc ∈ js ∧ v = numsSq loc ∧ v < b))
        ∧ v ≤ b ∧ ∀ j ∈ js, v ≤ numsSq j := by
  intro js
  induction js with
  | nil =>
    intro b l
    exact ⟨b, l, rfl, Or.inl ⟨rfl, rfl⟩, le_refl b, by simp⟩
  | cons j rest ih =>
    intro b l
    rw [List.foldl_cons, bsFindStep_some]
    by_cases hj : numsSq j < b
    · obtain ⟨v, loc, hfold, hcase, hle, hall⟩ := ih (numsSq j) j
      rw [if_pos hj]
      refine ⟨v, loc, hfold, ?_, (lt_of_le_of_lt hle hj).le, ?_⟩
      · rcases hcase with ⟨hv, hl⟩ | ⟨hmem, hv, hlt⟩
        · exact Or.inr ⟨by rw [hl]; exact List.mem_cons_self j rest, by rw [hv, hl],
            by rw [hv]; exact hj⟩
        · exact Or.inr ⟨List.mem_cons_of_mem j hmem, hv, lt_trans hlt hj⟩
      · intro j' hj'
        rcases List.mem_cons.mp hj' with h | h
        · subst h; exact hle
        · exact hall j' h
    · obtain ⟨v, loc, hfold, hcase, hle, hall⟩ := ih b l
      rw [if_neg hj]
      refine ⟨v, loc, hfold, ?_, hle, ?_⟩
      · rcases hcase with ⟨hv, hl⟩ | ⟨hmem, hv, hlt⟩
        · exact Or.inl ⟨hv, hl⟩
        · exact Or.inr ⟨List.mem_cons_of_mem j hmem, hv, hlt⟩
      · intro j' hj'
        rcases List.mem_cons.mp hj' with h | h
        · subst h; exact le_trans hle (le_of_not_lt hj)
        · exact hall j' h

theorem bsFind_spec (eps_t denSq : ℚ) (numsSq : ℕ → ℚ) :
    ∀ (js : List ℕ),
      (js.foldl (bsFindStep eps_t denSq numsSq) none = none →
        ∀ j ∈ js, ¬ numsSq j < eps_t ^ 2 * denSq)
      ∧ (∀ v loc, js.foldl (bsFindStep eps_t denSq numsSq) none = some (v, loc) →
          loc ∈ js ∧ v = numsSq loc ∧ v < eps_t ^ 2 * denSq ∧ ∀ j ∈ js, v ≤ numsSq j) := by
  intro js
  induction js with
  | nil =>
    refine ⟨fun _ j hj => absurd hj (List.not_mem_nil j), fun v loc h => ?_⟩
    rw [List.foldl_nil] at h
    exact absurd h (by simp)
  | cons j rest ih =>
    by_cases hj : numsSq j < eps_t ^ 2 * denSq
    · constructor
      · intro hnone
        rw [List.foldl_cons, bsFindStep_none, if_pos hj] at hnone
        obtain ⟨v, loc, hfold, -, -, -⟩ := bsFind_go_some eps_t denSq numsSq rest (numsSq j) j
        rw [hfold] at hnone
        exact absurd hnone (by simp)
      · intro v loc hsome
        rw [List.foldl_cons, bsFindStep_none, if_pos hj] at hsome
        obtain ⟨v', loc', hfold, hcase, hle, hall⟩ :=
          bsFind_go_some eps_t denSq numsSq rest (numsSq j) j
        rw [hfold] at hsome
        injection hsome with hpair
        injection hpair with hv hloc
        subst hv
        subst hloc
        rcases hcase with ⟨hv2, hl2⟩ | ⟨hmem, hv2, hlt⟩
        · refine ⟨by rw [hl2]; exact List.mem_cons_self j rest,
            by rw [hv2, hl2], by rw [hv2]; exact hj, fun j' hj' => ?_⟩
          rcases List.mem_cons.mp hj' with h | h
          · rw [h]; exact hle
          · exact hall j' h
        · exact ⟨List.mem_cons_of_mem j hmem, hv2, lt_trans hlt hj,
            fun j' hj' => by
              rcases List.mem_cons.mp hj' with h | h
              · subst h; exact hle
              · exact hall j' h⟩
    · rw [List.foldl_cons, bsFindStep_none, if_neg hj]
      refine ⟨fun hnone j' hj' => ?_, fun v loc hsome => ?_⟩
      · rcases List.mem_cons.mp hj' with h | h
        · subst h; exact hj
        · exact ih.1 hnone j' h
      · obtain ⟨hmem, hv, hlt, hall⟩ := ih.2 v loc hsome
        exact ⟨List.mem_cons_of_mem j hmem, hv, hlt,
          fun j' hj' => by
            rcases List.mem_cons.mp hj' with h | h
            · subst h; exact le_of_lt (lt_of_lt_of_le hlt (le_of_not_lt hj))
            · exact hall j' h⟩

theorem bsFind_none_of (eps_t denSq : ℚ) (numsSq : ℕ → ℚ) :
    ∀ (js : List ℕ), (∀ j ∈ js, ¬ numsSq j < eps_t ^ 2 * denSq) →
      js.foldl (bsFindStep eps_t denSq numsSq) none = none := by
  intro js
  induction js with
  | nil => intro _; rfl
  | cons j rest ih =>
    intro h
    rw [List.foldl_cons, bsFindStep_none, if_neg (h j (List.mem_cons_self j rest))]
    exact ih (fun j' hj' => h j' (List.mem_cons_of_mem j hj'))

theorem bsStep_unmatched (eps_t scl_num : ℚ) (K K_sub : ℕ) (bs_sub : List CQ)
    (dsflag : Bool) (i : ℕ) (b r rs : List CQ)
    (hfind : bsFindLoop eps_t (CQ.absSq (b.getD i 0))
      (fun j => CQ.absSq (b.getD i 0 - bs_sub.getD j 0)) K_sub = none) :
    bsStep eps_t scl_num K K_sub bs_sub dsflag (b, r, rs) i = (b, r, rs) := by
  simp only [bsStep, hfind]

theorem bsStep_matched (eps_t scl_num : ℚ) (K K_sub : ℕ) (bs_sub : List CQ)
    (dsflag : Bool) (i : ℕ) (b r rs : List CQ) (v : ℚ) (loc : ℕ)
    (hfind : bsFindLoop eps_t (CQ.absSq (b.getD i 0))
      (fun j => CQ.absSq (b.getD i 0 - bs_sub.getD j 0)) K_sub = some (v, loc)) :
    (bsStep eps_t scl_num K K_sub bs_sub dsflag (b, r, rs) i).1
        = b.set i ((CQ.ofRat scl_num * b.getD i 0 - bs_sub.getD loc 0)
          / CQ.ofRat (scl_num - 1))
    ∧ (bsStep eps_t scl_num K K_sub bs_sub dsflag (b, r, rs) i).2.1.length = r.length
    ∧ ∀ t, t ≠ i →
        (bsStep eps_t scl_num K K_sub bs_sub dsflag (b, r, rs) i).2.1.getD (K + t) 0
          = r.getD (K + t) 0 := by
  refine ⟨?_, ?_, ?_⟩
  · cases dsflag <;> simp only [bsStep, hfind] <;> rfl
  · cases dsflag <;> simp only [bsStep, hfind] <;> simp
  · intro t ht
    cases dsflag
    · simp only [bsStep, hfind]
      rfl
    · simp only [bsStep, hfind]
      rw [if_pos trivial]
      rw [getD_set_ne _ _ _ _ (by omega), getD_set_ne _ _ _ _ (by omega),
        getD_set_ne _ _ _ _ (by omega)]

theorem richardson_bs_fold_spec (eps_t scl_num : ℚ) (K K_sub : ℕ) (bs_sub : List CQ)
    (dsflag : Bool) (bs res res_sub : List CQ) (hK : K ≤ bs.length) :
    ∀ m, m ≤ K → ∀ out,
      out = (List.range m).foldl (bsStep eps_t scl_num K K_sub bs_sub dsflag)
        (bs, res, res_sub) →
      out.1.length = bs.length ∧ out.2.1.length = res.length
      ∧ (∀ t, m ≤ t → out.1.getD t 0 = bs.getD t 0
          ∧ out.2.1.getD (K + t) 0 = res.getD (K + t) 0)
      ∧ (∀ t, t < m →
          (bsFindLoop eps_t (CQ.absSq (bs.getD t 0))
              (fun j => CQ.absSq (bs.getD t 0 - bs_sub.getD j 0)) K_sub = none →
            out.1.getD t 0 = bs.getD t 0 ∧ out.2.1.getD (K + t) 0 = res.getD (K + t) 0)
          ∧ (∀ v loc, bsFindLoop eps_t (CQ.absSq (bs.getD t 0))
              (fun j => CQ.absSq (bs.getD t 0 - bs_sub.getD j 0)) K_sub = some (v, loc) →
            out.1.getD t 0 = (CQ.ofRat scl_num * bs.getD t 0 - bs_sub.getD loc 0)
              / CQ.ofRat (scl_num - 1))) := by
  intro m
  induction m with
  | zero =>
    intro _ out hout
    subst hout
    exact ⟨rfl, rfl, fun t _ => ⟨rfl, rfl⟩, fun t ht => absurd ht (Nat.not_lt_zero t)⟩
  | succ m ih =>
    intro hm out hout
    obtain ⟨hlen1, hlen2, huntouched, hdone⟩ := ih (by omega) _ rfl
    set Om := (List.range m).foldl (bsStep eps_t scl_num K K_sub bs_sub dsflag)
      (bs, res, res_sub) with hOm
    have hout' : out = bsStep eps_t scl_num K K_sub bs_sub dsflag Om m := by
      rw [hout, List.range_succ, List.foldl_append, List.foldl_cons, List.foldl_nil]
    have hbm : Om.1.getD m 0 = bs.getD m 0 := (huntouched m (le_refl m)).1
    have hrm : Om.2.1.getD (K + m) 0 = res.getD (K + m) 0 := (huntouched m (le_refl m)).2
    have hOmeta : Om = (Om.1, Om.2.1, Om.2.2) := rfl
    have hfind_eq : bsFindLoop eps_t (CQ.absSq (Om.1.getD m 0))
        (fun j => CQ.absSq (Om.1.getD m 0 - bs_sub.getD j 0)) K_sub
        = bsFindLoop eps_t (CQ.absSq (bs.getD m 0))
          (fun j => CQ.absSq (bs.getD m 0 - bs_sub.getD j 0)) K_sub := by
      rw [hbm]
    cases hfind : bsFindLoop eps_t (CQ.absSq (bs.getD m 0))
        (fun j => CQ.absSq (bs.getD m 0 - bs_sub.getD j 0)) K_sub with
    | none =>
      have hstep : out = Om := by
        rw [hout', hOmeta]
        exact bsStep_unmatched eps_t scl_num K K_sub bs_sub dsflag m Om.1 Om.2.1 Om.2.2
          (hfind_eq.trans hfind)
      rw [hstep]
      refine ⟨hlen1, hlen2, fun t ht => huntouched t (by omega), fun t ht => ?_⟩
      by_cases htm : t < m
      · exact hdone t htm
      · have : t = m := by omega
        subst this
        refine ⟨fun _ => ⟨hbm, hrm⟩, fun v loc hsome => ?_⟩
        rw [hfind] at hsome
        exact absurd hsome (by simp)
    | some vl =>
      obtain ⟨v0, loc0⟩ := vl
      have hfindOm : bsFindLoop eps_t (CQ.absSq (Om.1.getD m 0))
          (fun j => CQ.absSq (Om.1.getD m 0 - bs_sub.getD j 0)) K_sub
          = some (v0, loc0) := hfind_eq.trans hfind
      obtain ⟨hbs_eq, hreslen, hres_eq⟩ := bsStep_matched eps_t scl_num K K_sub bs_sub
        dsflag m Om.1 Om.2.1 Om.2.2 v0 loc0 hfindOm
      have hout1 : out.1 = Om.1.set m
          ((CQ.ofRat scl_num * Om.1.getD m 0 - bs_sub.getD loc0 0)
            / CQ.ofRat (scl_num - 1)) := by
        rw [hout', hOmeta]; exact hbs_eq
      have hout21getD : ∀ t, t ≠ m → out.2.1.getD (K + t) 0 = Om.2.1.getD (K + t) 0 := by
        intro t ht
        rw [hout', hOmeta]; exact hres_eq t ht
      have hout21len : out.2.1.length = Om.2.1.length := by
        rw [hout', hOmeta]; exact hreslen
      refine ⟨by rw [hout1]; simp [hlen1], by rw [hout21len]; exact hlen2,
        fun t ht => ?_, fun t ht => ?_⟩
      · constructor
        · rw [hout1, getD_set_ne _ _ _ _ (by omega)]
          exact (huntouched t (by omega)).1
        · rw [hout21getD t (by omega)]
          exact (huntouched t (by omega)).2
      · by_cases htm : t < m
        · refine ⟨fun hnone => ?_, fun v loc hsome => ?_⟩
          · constructor
            · rw [hout1, getD_set_ne _ _ _ _ (by omega)]
              exact ((hdone t htm).1 hnone).1
            · rw [hout21getD t (by omega)]
              exact ((hdone t htm).1 hnone).2
          · rw [hout1, getD_set_ne _ _ _ _ (by omega)]
            exact (hdone t htm).2 v loc hsome
        · have : t = m := by omega
          subst this
          refine ⟨fun hnone => ?_, fun v loc hsome => ?_⟩
          · rw [hfind] at hnone
            exact absurd hnone (by simp)
          · rw [hfind] at hsome
            injection hsome with hpair
            injection hpair with hv hloc
            rw [hout1, getD_set_self _ _ _ (by rw [hlen1]; omega), hbm, hloc]

/-- C9: in the Richardson bound-state step, a full-run eigenvalue `i` is
extrapolated only when some sub-run eigenvalue lies within relative
distance strictly below `eps_t` of it (squared/cross-multiplied:
`|bs_i - bs_sub_j|^2 < eps_t^2 * |bs_i|^2`); the nearest such sub-run
eigenvalue is the one used in `(s*bs_i - bs_sub_loc)/(s-1)`; and a
full-run eigenvalue with no sub-run eigenvalue within the threshold is
left unchanged, its reserve residue slot `K + i` as well. -/
theorem richardson_bs_matching (eps_t scl_num : ℚ) (K K_sub : ℕ) (bs_sub : List CQ)
    (dsflag : Bool) (bs res res_sub : List CQ) (hK : K ≤ bs.length)
    (i : ℕ) (hi : i < K) :
    ((∀ j, j < K_sub → ¬ CQ.absSq (bs.getD i 0 - bs_sub.getD j 0)
          < eps_t ^ 2 * CQ.absSq (bs.getD i 0)) →
      (richardson_bs_step eps_t scl_num K K_sub bs_sub dsflag bs res res_sub).1.getD i 0
          = bs.getD i 0
      ∧ (richardson_bs_step eps_t scl_num K K_sub bs_sub dsflag bs res
          res_sub).2.1.getD (K + i) 0 = res.getD (K + i) 0)
    ∧ ((∃ j, j < K_sub ∧ CQ.absSq (bs.getD i 0 - bs_sub.getD j 0)
          < eps_t ^ 2 * CQ.absSq (bs.getD i 0)) →
      ∃ loc, loc < K_sub
        ∧ CQ.absSq (bs.getD i 0 - bs_sub.getD loc 0) < eps_t ^ 2 * CQ.absSq (bs.getD i 0)
        ∧ (∀ j, j < K_sub → CQ.absSq (bs.getD i 0 - bs_sub.getD loc 0)
            ≤ CQ.absSq (bs.getD i 0 - bs_sub.getD j 0))
        ∧ (richardson_bs_step eps_t scl_num K K_sub bs_sub dsflag bs res
            res_sub).1.getD i 0
          = (CQ.ofRat scl_num * bs.getD i 0 - bs_sub.getD loc 0)
            / CQ.ofRat (scl_num - 1)) := by
  obtain ⟨-, -, -, hdone⟩ := richardson_bs_fold_spec eps_t scl_num K K_sub bs_sub dsflag
    bs res res_sub hK K (le_refl K)
    (richardson_bs_step eps_t scl_num K K_sub bs_sub dsflag bs res res_sub) rfl
  constructor
  · intro hsem
    have hnone : bsFindLoop eps_t (CQ.absSq (bs.getD i 0))
        (fun j => CQ.absSq (bs.getD i 0 - bs_sub.getD j 0)) K_sub = none := by
      rw [bsFindLoop]
      exact bsFind_none_of eps_t (CQ.absSq (bs.getD i 0))
        (fun j => CQ.absSq (bs.getD i 0 - bs_sub.getD j 0)) (List.range K_sub)
        (fun j hj => hsem j (List.mem_range.mp hj))
    exact (hdone i hi).1 hnone
  · rintro ⟨j0, hj0, hsem⟩
    cases hfind : bsFindLoop eps_t (CQ.absSq (bs.getD i 0))
        (fun j => CQ.absSq (bs.getD i 0 - bs_sub.getD j 0)) K_sub with
    | none =>
      rw [bsFindLoop] at hfind
      have := (bsFind_spec eps_t (CQ.absSq (bs.getD i 0))
        (fun j => CQ.absSq (bs.getD i 0 - bs_sub.getD j 0)) (List.range K_sub)).1 hfind
        j0 (List.mem_range.mpr hj0)
      exact absurd hsem this
    | some vl =>
      obtain ⟨v, loc⟩ := vl
      have hspec := (bsFind_spec eps_t (CQ.absSq (bs.getD i 0))
        (fun j => CQ.absSq (bs.getD i 0 - bs_sub.getD j 0)) (List.range K_sub)).2 v loc
        (by rw [← bsFindLoop]; exact hfind)
      obtain ⟨hmem, hv, hlt, hall⟩ := hspec
      refine ⟨loc, List.mem_range.mp hmem, by rw [← hv]; exact hlt,
        fun j hj => by rw [← hv]; exact hall j (List.mem_range.mpr hj), ?_⟩
      exact (hdone i hi).2 v loc hfind

/-- Witness for `richardson_bs_matching`: one full-run eigenvalue `4`,
one sub-run eigenvalue `3` within the relative threshold (`1 < 1*16`),
`s = 2`; the extrapolated eigenvalue is `(2*4 - 3)/(2-1) = 5`. -/
theorem richardson_bs_matching_witness :
    (richardson_bs_step 1 2 1 1 [⟨3, 0⟩] false [⟨4, 0⟩] [] []).1.getD 0 0 = ⟨5, 0⟩ := by
  obtain ⟨loc, hloc, -, -, heq⟩ :=
    (richardson_bs_matching 1 2 1 1 [⟨3, 0⟩] false [⟨4, 0⟩] [] [] (by norm_num)
      0 (by norm_num)).2
      ⟨0, by norm_num, by simp [CQ.absSq] <;> norm_num⟩
  have hloc0 : loc = 0 := by omega
  subst hloc0
  rw [heq]
  simp [CQ.ofRat] <;> norm_num

/-! ## Signal Resampler (`signal_effective_from_signal`, lines 692–936) -/

/-- C `ROUND((REAL)a / b)` for naturals (round half away from zero on a
nonnegative quotient): `floor(a/b + 1/2) = (2a + b) / (2b)`. -/
def cround (a b : ℕ) : ℕ := (2 * a + b) / (2 * b)

/-- C `round` on a nonnegative rational: `⌊x + 1/2⌋`. -/
def ratRound (x : ℚ) : ℤ := ⌊x + 1 / 2⌋

/-- `cround` computes exactly the C rounding of the real quotient. -/
theorem cround_eq_ratRound (a b : ℕ) (hb : 0 < b) :
    (cround a b : ℤ) = ratRound ((a : ℚ) / (b : ℚ)) := by
  have hb' : (b : ℚ) ≠ 0 := by positivity
  have hx : (a : ℚ) / (b : ℚ) + 1 / 2 = ((2 * a + b : ℕ) : ℚ) / ((2 * b : ℕ) : ℚ) := by
    push_cast
    field_simp
    ring
  have hnonneg : (0 : ℚ) ≤ ((2 * a + b : ℕ) : ℚ) / ((2 * b : ℕ) : ℚ) := by positivity
  rw [ratRound, hx, ← Int.natCast_floor_eq_floor hnonneg, Nat.floor_div_eq_div]
  rfl

/-- The `nse_discretization_BO` branch of the resampler: one effective
sample per step, taken verbatim (`q_effective[isub] = q[i]`,
`r_effective[isub] = -kappa*CONJ(q[i])`, `i += nskip_per_step`).  `n` is
the number of remaining effective samples, `i` the running original
index. -/
def boFill (q : List CQ) (kappa : ℤ) (nskip : ℕ) : ℕ → ℕ → List CQ × List CQ
  | 0, _ => ([], [])
  | n + 1, i =>
    let rest := boFill q kappa nskip n (i + nskip)
    (q.getD i 0 :: rest.1,
      CQ.ofInt (-kappa) * CQ.conj (q.getD i 0) :: rest.2)

/-- The `CF4_2` branch body: two effective nodes per step from the two
band-limited shifted copies; `n` counts steps. -/
def cf42Fill (q1 q2 : List CQ) (kappa : ℤ) (nskip : ℕ) (scl : ℚ) :
    ℕ → ℕ → List CQ × List CQ
  | 0, _ => ([], [])
  | n + 1, i =>
    let qa := (q1.getD i 0 + q2.getD i 0) / CQ.ofRat 4
      - (q2.getD i 0 - q1.getD i 0) * CQ.ofRat scl
    let qb := (q1.getD i 0 + q2.getD i 0) / CQ.ofRat 4
      + (q2.getD i 0 - q1.getD i 0) * CQ.ofRat scl
    let rest := cf42Fill q1 q2 kappa nskip scl n (i + nskip)
    (qa :: qb :: rest.1,
      CQ.ofInt (-kappa) * CQ.conj qa :: CQ.ofInt (-kappa) * CQ.conj qb :: rest.2)

/-- The `CF4_3` branch body: three effective nodes per step as fixed real
linear combinations of the two shifted copies and the original signal. -/
def cf43Fill (q1 q q3 : List CQ) (kappa : ℤ) (nskip : ℕ) :
    ℕ → ℕ → List CQ × List CQ
  | 0, _ => ([], [])
  | n + 1, i =>
    let qa := CQ.ofRat 0.302556833188024 * q1.getD i 0
      - CQ.ofRat 0.033333333333333 * q.getD i 0
      + CQ.ofRat 0.005776500145310 * q3.getD i 0
    let qb := CQ.ofRat (-0.030555555555556) * q1.getD i 0
      + CQ.ofRat 0.511111111111111 * q.getD i 0
      - CQ.ofRat 0.030555555555556 * q3.getD i 0
    let qc := CQ.ofRat 0.005776500145310 * q1.getD i 0
      - CQ.ofRat 0.033333333333333 * q.getD i 0
      + CQ.ofRat 0.302556833188024 * q3.getD i 0
    let rest := cf43Fill q1 q q3 kappa nskip n (i + nskip)
    (qa :: qb :: qc :: rest.1,
      CQ.ofInt (-kappa) * CQ.conj qa :: CQ.ofInt (-kappa) * CQ.conj qb
        :: CQ.ofInt (-kappa) * CQ.conj qc :: rest.2)

/-- The `CF5_3` branch body: three effective nodes per step as fixed
complex linear combinations of `(q_1, q, q_3)` and, separately, of the
pre-derived co-field copies `(r_1, r_2, r_3)`. -/
def cf53Fill (q1 q q3 r1 r2 r3 : List CQ) (nskip : ℕ) :
    ℕ → ℕ → List CQ × List CQ
  | 0, _ => ([], [])
  | n + 1, i =>
    let c1 : CQ := ⟨0.320333759788527, 0.055396500128741⟩
    let c2 : CQ := ⟨-0.022222222222222, 0.066666666666667⟩
    let c3 : CQ := ⟨0.001888462433695, -0.022063166795408⟩
    let d1 : CQ := ⟨-0.044444444444444, -0.077459666924148⟩
    let d2 : CQ := ⟨0.488888888888889, 0⟩
    let d3 : CQ := ⟨-0.044444444444444, 0.077459666924148⟩
    let e1 : CQ := ⟨0.001888462433695, 0.022063166795408⟩
    let e2 : CQ := ⟨-0.022222222222222, -0.066666666666667⟩
    let e3 : CQ := ⟨0.320333759788527, -0.055396500128741⟩
    let rest := cf53Fill q1 q q3 r1 r2 r3 nskip n (i + nskip)
    ((c1 * q1.getD i 0 + c2 * q.getD i 0 + c3 * q3.getD i 0)
        :: (d1 * q1.getD i 0 + d2 * q.getD i 0 + d3 * q3.getD i 0)
        :: (e1 * q1.getD i 0 + e2 * q.getD i 0 + e3 * q3.getD i 0) :: rest.1,
      (c1 * r1.getD i 0 + c2 * r2.getD i 0 + c3 * r3.getD i 0)
        :: (d1 * r1.getD i 0 + d2 * r2.getD i 0 + d3 * r3.getD i 0)
        :: (e1 * r1.getD i 0 + e2 * r2.getD i 0 + e3 * r3.getD i 0) :: rest.2)

/-- The `CF6_4` branch body: four effective nodes per step. -/
def cf64Fill (q1 q q3 r1 r2 r3 : List CQ) (nskip : ℕ) :
    ℕ → ℕ → List CQ × List CQ
  | 0, _ => ([], [])
  | n + 1, i =>
    let a1 : CQ := ⟨0.245985577298764, 0.038734389227165⟩
    let a2 : CQ := ⟨-0.046806149832549, 0.012442141491185⟩
    let a3 : CQ := ⟨0.010894359342569, -0.004575808769067⟩
    let b1 : CQ := ⟨0.062868370946917, -0.048761268117765⟩
    let b2 : CQ := ⟨0.269028372054771, -0.012442141491185⟩
    let b3 : CQ := ⟨-0.041970529810473, 0.014602687659668⟩
    let rest := cf64Fill q1 q q3 r1 r2 r3 nskip n (i + nskip)
    ((a1 * q1.getD i 0 + a2 * q.getD i 0 + a3 * q3.getD i 0)
        :: (b1 * q1.getD i 0 + b2 * q.getD i 0 + b3 * q3.getD i 0)
        :: (b3 * q1.getD i 0 + b2 * q.getD i 0 + b1 * q3.getD i 0)
        :: (a3 * q1.getD i 0 + a2 * q.getD i 0 + a1 * q3.getD i 0) :: rest.1,
      (a1 * r1.getD i 0 + a2 * r2.getD i 0 + a3 * r3.getD i 0)
        :: (b1 * r1.getD i 0 + b2 * r2.getD i 0 + b3 * r3.getD i 0)
        :: (b3 * r1.getD i 0 + b2 * r2.getD i 0 + b1 * r3.getD i 0)
        :: (a3 * r1.getD i 0 + a2 * r2.getD i 0 + a1 * r3.getD i 0) :: rest.2)

/-- The `ES4`/`TES4` value-node loop (`for isub=0; isub<D_effective;
isub+=3: q_effective[isub] = q[i]; i += nskip`), on a zero-initialized
buffer; `fuel` bounds the iteration count. -/
def es4Values (q : List CQ) (nskip Deff : ℕ) : ℕ → ℕ → ℕ → List CQ → List CQ
  | 0, _, _, buf => buf
  | fuel + 1, isub, i, buf =>
    if isub < Deff then
      es4Values q nskip Deff fuel (isub + 3) (i + nskip) (buf.set isub (q.getD i 0))
    else buf

/-- The `ES4`/`TES4` interior finite-difference loop (`for isub=3;
isub<D_effective-3; isub+=3`). -/
def es4Interior (eps_t_sub eps_t_sub2 : ℚ) (Deff : ℕ) : ℕ → ℕ → List CQ → List CQ
  | 0, _, buf => buf
  | fuel + 1, isub, buf =>
    if isub < Deff - 3 then
      let buf1 := buf.set (isub + 1)
        ((buf.getD (isub + 3) 0 - buf.getD (isub - 3) 0) / CQ.ofRat (2 * eps_t_sub))
      let buf2 := buf1.set (isub + 2)
        ((buf1.getD (isub + 3) 0 - CQ.ofRat 2 * buf1.getD isub 0 + buf1.getD (isub - 3) 0)
          / CQ.ofRat eps_t_sub2)
      es4Interior eps_t_sub eps_t_sub2 Deff fuel (isub + 3) buf2
    else buf

/-- `signal_effective_from_signal` of `fnft_nsev_slow.c`.  `resample` is
the oracle for `fnft__misc_resample` (band-limited fractional time
shift; source not part of this excerpt), and `sqrt3`, `sqrt3o20`,
`sqrt15` stand for the real constants `SQRT(3.0)`, `SQRT(3.0/20.0)` and
`SQRT(15.0)` appearing in the shift amounts.  Returns the achieved
`Dsub`, the effective signal pair, and the original-index range
`[first, last]`. -/
def signal_effective_from_signal
    (resample : ℕ → ℚ → List CQ → ℚ → Except Err (List CQ))
    (sqrt3 sqrt3o20 sqrt15 : ℚ)
    (D : ℕ) (q : List CQ) (eps_t : ℚ) (kappa : ℤ) (Dsub_req : ℕ)
    (discretization : Discretization) :
    Except Err (ℕ × List CQ × List CQ × (ℕ × ℕ)) :=
  if D < 2 then .error .InvalidArgument
  else if eps_t ≤ 0 then .error .InvalidArgument
  else if kappa.natAbs ≠ 1 then .error .InvalidArgument
  else
    let Dsub1 := if Dsub_req < 2 then 2 else Dsub_req
    let Dsub2 := if Dsub1 > D then D else Dsub1
    let nskip_per_step := cround D Dsub2
    let Dsub := cround D nskip_per_step
    let D_scale := nse_discretization_D_scale discretization
    if D_scale = 0 then .error .InvalidArgument
    else
      let D_effective := Dsub * D_scale
      let fl := (0, (Dsub - 1) * nskip_per_step)
      match discretization with
      | .BO =>
        let qr := boFill q kappa nskip_per_step D_effective 0
        .ok (Dsub, qr.1, qr.2, fl)
      | .CF4_2 =>
        match resample D eps_t q (-eps_t * (sqrt3 / 6) * nskip_per_step) with
        | .error e => .error e
        | .ok q_1 =>
          match resample D eps_t q (eps_t * (sqrt3 / 6) * nskip_per_step) with
          | .error e => .error e
          | .ok q_2 =>
            let qr := cf42Fill q_1 q_2 kappa nskip_per_step (sqrt3 / 6)
              (D_effective / 2) 0
            .ok (Dsub, qr.1, qr.2, fl)
      | .CF4_3 =>
        match resample D eps_t q (-eps_t * sqrt3o20 * nskip_per_step) with
        | .error e => .error e
        | .ok q_1 =>
          match resample D eps_t q (eps_t * sqrt3o20 * nskip_per_step) with
          | .error e => .error e
          | .ok q_3 =>
            let qr := cf43Fill q_1 q q_3 kappa nskip_per_step (D_effective / 3) 0
            .ok (Dsub, qr.1, qr.2, fl)
      | .CF5_3 =>
        match resample D eps_t q (-eps_t * (sqrt15 / 10) * nskip_per_step) with
        | .error e => .error e
        | .ok q_1 =>
          match resample D eps_t q (eps_t * (sqrt15 / 10) * nskip_per_step) with
          | .error e => .error e
          | .ok q_3 =>
            let r_1 := (List.range D).map (fun i => CQ.ofInt (-kappa) * CQ.conj (q_1.getD i 0))
            let r_2 := (List.range D).map (fun i => CQ.ofInt (-kappa) * CQ.conj (q.getD i 0))
            let r_3 := (List.range D).map (fun i => CQ.ofInt (-kappa) * CQ.conj (q_3.getD i 0))
            let qr := cf53Fill q_1 q q_3 r_1 r_2 r_3 nskip_per_step (D_effective / 3) 0
            .ok (Dsub, qr.1, qr.2, fl)
      | .CF6_4 =>
        match resample D eps_t q (-eps_t * nskip_per_step * (sqrt15 / 10)) with
        | .error e => .error e
        | .ok q_1 =>
          match resample D eps_t q (eps_t * nskip_per_step * (sqrt15 / 10)) with
          | .error e => .error e
          | .ok q_3 =>
            let r_1 := (List.range D).map (fun i => CQ.ofInt (-kappa) * CQ.conj (q_1.getD i 0))
            let r_2 := (List.range D).map (fun i => CQ.ofInt (-kappa) * CQ.conj (q.getD i 0))
            let r_3 := (List.range D).map (fun i => CQ.ofInt (-kappa) * CQ.conj (q_3.getD i 0))
            let qr := cf64Fill q_1 q q_3 r_1 r_2 r_3 nskip_per_step (D_effective / 4) 0
            .ok (Dsub, qr.1, qr.2, fl)
      | .ES4 =>
        let vals := es4Values q nskip_per_step D_effective D_effective 0 0
          (List.replicate D_effective 0)
        let eps_t_sub := eps_t * nskip_per_step
        let eps_t_sub2 := eps_t_sub ^ 2
        let b1 := vals.set 1 ((vals.getD 3 0 - vals.getD 0 0) / CQ.ofRat eps_t_sub)
        let b2 := b1.set 2 ((b1.getD 6 0 - CQ.ofRat 2 * b1.getD 3 0 + b1.getD 0 0)
          / CQ.ofRat eps_t_sub2)
        let b3 := b2.set (D_effective - 2)
          ((b2.getD (D_effective - 3) 0 - b2.getD (D_effective - 6) 0) / CQ.ofRat eps_t_sub)
        let b4 := b3.set (D_effective - 1)
          ((b3.getD (D_effective - 3) 0 - CQ.ofRat 2 * b3.getD (D_effective - 6) 0
            + b3.getD (D_effective - 9) 0) / CQ.ofRat eps_t_sub2)
        let qe := es4Interior eps_t_sub eps_t_sub2 D_effective D_effective 3 b4
        let re := (List.range D_effective).map
          (fun i => CQ.ofInt (-kappa) * CQ.conj (qe.getD i 0))
        .ok (Dsub, qe, re, fl)
      | .TES4 =>
        let vals := es4Values q nskip_per_step D_effective D_effective 0 0
          (List.replicate D_effective 0)
        let eps_t_sub := eps_t * nskip_per_step
        let eps_t_sub2 := eps_t_sub ^ 2
        let b1 := vals.set 1 ((vals.getD 3 0 - vals.getD 0 0) / CQ.ofRat eps_t_sub)
        let b2 := b1.set 2 ((b1.getD 6 0 - CQ.ofRat 2 * b1.getD 3 0 + b1.getD 0 0)
          / CQ.ofRat eps_t_sub2)
        let b3 := b2.set (D_effective - 2)
          ((b2.getD (D_effective - 3) 0 - b2.getD (D_effective - 6) 0) / CQ.ofRat eps_t_sub)
        let b4 := b3.set (D_effective - 1)
          ((b3.getD (D_effective - 3) 0 - CQ.ofRat 2 * b3.getD (D_effective - 6) 0
            + b3.getD (D_effective - 9) 0) / CQ.ofRat eps_t_sub2)
        let qe := es4Interior eps_t_sub eps_t_sub2 D_effective D_effective 3 b4
        let re := (List.range D_effective).map
          (fun i => CQ.ofInt (-kappa) * CQ.conj (qe.getD i 0))
        .ok (Dsub, qe, re, fl)

theorem boFill_spec (q : List CQ) (kappa : ℤ) (nskip : ℕ) :
    ∀ (n i : ℕ),
      (boFill q kappa nskip n i).1.length = n
      ∧ (boFill q kappa nskip n i).2.length = n
      ∧ ∀ t, t < n →
          (boFill q kappa nskip n i).1.getD t 0 = q.getD (i + t * nskip) 0
          ∧ (boFill q kappa nskip n i).2.getD t 0
            = CQ.ofInt (-kappa) * CQ.conj (q.getD (i + t * nskip) 0) := by
  intro n
  induction n with
  | zero => intro i; exact ⟨rfl, rfl, fun t ht => absurd ht (Nat.not_lt_zero t)⟩
  | succ n ih =>
    intro i
    obtain ⟨hl1, hl2, hv⟩ := ih (i + nskip)
    rw [boFill]
    refine ⟨by simpa using hl1, by simpa using hl2, fun t ht => ?_⟩
    match t with
    | 0 => simp
    | t + 1 =>
      have := hv t (by omega)
      have hidx : i + nskip + t * nskip = i + (t + 1) * nskip := by ring
      simp only [List.getD_cons_succ]
      rw [this.1, this.2, hidx]
      exact ⟨rfl, rfl⟩

/-- C6: for `D ≥ 2`, the resampler clamps the requested `Dsub` to
`[2, D]` (the two `if`s compute `min D (max 2 Dsub_req)`), computes the
stride `nskip = round(D/Dsub)` and the achieved `Dsub' = round(D/nskip)`
with C `round` (half away from zero) of the real quotient, and for the
direct `BO` scheme the effective signal is every `nskip`-th original
sample verbatim, with `r_eff[isub] = -kappa * conj(q_eff[isub])` at every
index. -/
theorem signal_effective_bo_spec
    (resample : ℕ → ℚ → List CQ → ℚ → Except Err (List CQ))
    (sqrt3 sqrt3o20 sqrt15 : ℚ) (D : ℕ) (q : List CQ) (eps_t : ℚ) (kappa : ℤ)
    (Dsub_req : ℕ) (hD : 2 ≤ D) (heps : 0 < eps_t) (hkap : kappa.natAbs = 1) :
    ∃ qe re,
      signal_effective_from_signal resample sqrt3 sqrt3o20 sqrt15 D q eps_t kappa
          Dsub_req .BO
        = .ok (cround D (cround D (min D (max 2 Dsub_req))), qe, re,
            (0, (cround D (cround D (min D (max 2 Dsub_req))) - 1)
              * cround D (min D (max 2 Dsub_req))))
      ∧ (cround D (min D (max 2 Dsub_req)) : ℤ)
          = ratRound ((D : ℚ) / ((min D (max 2 Dsub_req) : ℕ) : ℚ))
      ∧ (cround D (cround D (min D (max 2 Dsub_req))) : ℤ)
          = ratRound ((D : ℚ) / ((cround D (min D (max 2 Dsub_req)) : ℕ) : ℚ))
      ∧ qe.length = cround D (cround D (min D (max 2 Dsub_req)))
      ∧ re.length = cround D (cround D (min D (max 2 Dsub_req)))
      ∧ ∀ isub, isub < cround D (cround D (min D (max 2 Dsub_req))) →
          qe.getD isub 0 = q.getD (isub * cround D (min D (max 2 Dsub_req))) 0
          ∧ re.getD isub 0 = CQ.ofInt (-kappa) * CQ.conj (qe.getD isub 0) := by
  have hclamp : (if (if Dsub_req < 2 then 2 else Dsub_req) > D then D
      else (if Dsub_req < 2 then 2 else Dsub_req)) = min D (max 2 Dsub_req) := by
    split_ifs <;> omega
  have hminle : min D (max 2 Dsub_req) ≤ D := Nat.min_le_left _ _
  have hc2 : 0 < min D (max 2 Dsub_req) := by
    rcases Nat.le_total D (max 2 Dsub_req) with h | h
    · rw [Nat.min_eq_left h]; omega
    · rw [Nat.min_eq_right h]; omega
  have hnskip_pos : 0 < cround D (min D (max 2 Dsub_req)) := by
    rw [cround]
    exact Nat.div_pos (by omega) (by omega)
  refine ⟨(boFill q kappa (cround D (min D (max 2 Dsub_req)))
      (cround D (cround D (min D (max 2 Dsub_req))) * 1) 0).1,
    (boFill q kappa (cround D (min D (max 2 Dsub_req)))
      (cround D (cround D (min D (max 2 Dsub_req))) * 1) 0).2, ?_,
    cround_eq_ratRound D _ hc2, cround_eq_ratRound D _ hnskip_pos, ?_, ?_, ?_⟩
  · rw [signal_effective_from_signal, if_neg (by omega), if_neg (not_le.mpr heps),
      if_neg (by simp [hkap])]
    simp only [hclamp]
    rw [if_neg (by simp [nse_discretization_D_scale])]
    rfl
  · obtain ⟨hl, -, -⟩ := boFill_spec q kappa (cround D (min D (max 2 Dsub_req)))
      (cround D (cround D (min D (max 2 Dsub_req))) * 1) 0
    rw [hl]; ring
  · obtain ⟨-, hl, -⟩ := boFill_spec q kappa (cround D (min D (max 2 Dsub_req)))
      (cround D (cround D (min D (max 2 Dsub_req))) * 1) 0
    rw [hl]; ring
  · intro isub hisub
    obtain ⟨-, -, hv⟩ := boFill_spec q kappa (cround D (min D (max 2 Dsub_req)))
      (cround D (cround D (min D (max 2 Dsub_req))) * 1) 0
    obtain ⟨h1, h2⟩ := hv isub (by omega)
    rw [Nat.zero_add] at h1 h2
    exact ⟨h1, by rw [h2, h1]⟩

/-- Witness for `signal_effective_bo_spec`: `D = 5`, requested `Dsub = 2`
gives stride `nskip = round(5/2) = 3`, achieved `Dsub' = round(5/3) = 2`,
and the second effective sample is `q[3]`. -/
theorem signal_effective_bo_spec_witness :
    ∃ qe re,
      signal_effective_from_signal (fun _ _ _ _ => .ok []) 1 1 1 5
          [⟨1, 0⟩, ⟨2, 0⟩, ⟨3, 0⟩, ⟨4, 0⟩, ⟨5, 0⟩] 1 1 2 .BO
        = .ok (2, qe, re, (0, 3))
      ∧ qe.getD 1 0 = ⟨4, 0⟩ ∧ re.getD 1 0 = CQ.ofInt (-1) * CQ.conj ⟨4, 0⟩ := by
  obtain ⟨qe, re, hok, -, -, -, -, hv⟩ := signal_effective_bo_spec
    (fun _ _ _ _ => .ok []) 1 1 1 5 [⟨1, 0⟩, ⟨2, 0⟩, ⟨3, 0⟩, ⟨4, 0⟩, ⟨5, 0⟩] 1 1 2
    (by norm_num) (by norm_num) (by norm_num)
  have hcr1 : cround 5 (min 5 (max 2 2)) = 3 := by decide
  have hcr2 : cround 5 (cround 5 (min 5 (max 2 2))) = 2 := by decide
  rw [hcr2, hcr1] at hok hv
  obtain ⟨h1, h2⟩ := hv 1 (by norm_num)
  refine ⟨qe, re, by simpa using hok, by simpa using h1, ?_⟩
  rw [h2, h1]
  rfl

/-! ## Direct Scatter-Matrix entry (`fnft__nse_scatter_matrix.c`) -/

/-- `nse_scatter_matrix` of `src/private/fnft__nse_scatter_matrix.c`:
input checks, the discretization switch (only `BO` maps to an AKNS
discretization; every other identity returns `InvalidArgument`), local
computation of `r` from `q` and the sign, and the delegation to
`akns_scatter_matrix` (oracle `akns`; its source is not part of this
excerpt).  Nullable pointer arguments are modelled as `Option`s. -/
def nse_scatter_matrix
    (akns : ℕ → List CQ → List CQ → ℚ → ℕ → List CQ → Except Err (List CQ))
    (D : ℕ) (q : Option (List CQ)) (eps_t : ℚ) (kappa : ℤ) (K : ℕ)
    (lambda : Option (List CQ)) (result_buf : Option (List CQ))
    (discretization : Discretization) : Except Err (List CQ) :=
  if D = 0 then .error .InvalidArgument
  else if q = none then .error .InvalidArgument
  else if ¬ eps_t > 0 then .error .InvalidArgument
  else if kappa.natAbs ≠ 1 then .error .InvalidArgument
  else if K = 0 then .error .InvalidArgument
  else if lambda = none then .error .InvalidArgument
  else if result_buf = none then .error .InvalidArgument
  else
    match discretization with
    | .BO =>
      let qv := q.getD []
      let r := if kappa = 1 then qv.map (fun z => -CQ.conj z) else qv.map CQ.conj
      akns D qv r eps_t K (lambda.getD [])
    | _ => .error .InvalidArgument

/-- C8: the direct scatter-matrix entry point accepts only the `BO`
discretization — for every input with any other identity it returns
`InvalidArgument` (either from the switch default or from an earlier
argument check, which also yields `InvalidArgument`) — even though the
resampler's scheme dispatch accepts each of the `CF4_2`, `CF4_3`,
`CF5_3`, `CF6_4`, `ES4` and `TES4` identities: with valid arguments and
a successful `misc_resample` oracle it completes without error. -/
theorem nse_scatter_matrix_only_BO
    (akns : ℕ → List CQ → List CQ → ℚ → ℕ → List CQ → Except Err (List CQ))
    (D : ℕ) (q : Option (List CQ)) (eps_t : ℚ) (kappa : ℤ) (K : ℕ)
    (lambda : Option (List CQ)) (result_buf : Option (List CQ))
    (d : Discretization) (hd : d ≠ .BO)
    (resample : ℕ → ℚ → List CQ → ℚ → Except Err (List CQ))
    (sqrt3 sqrt3o20 sqrt15 : ℚ) (D2 : ℕ) (q2 : List CQ) (eps2 : ℚ) (kappa2 : ℤ)
    (Dsub_req : ℕ)
    (hD2 : 2 ≤ D2) (heps2 : 0 < eps2) (hkap2 : kappa2.natAbs = 1)
    (hres : ∀ Dx ex qx dx, ∃ l, resample Dx ex qx dx = .ok l) :
    nse_scatter_matrix akns D q eps_t kappa K lambda result_buf d
        = .error .InvalidArgument
    ∧ ∀ d2, d2 ≠ Discretization.BO →
        ∃ out, signal_effective_from_signal resample sqrt3 sqrt3o20 sqrt15 D2 q2 eps2
          kappa2 Dsub_req d2 = .ok out := by
  constructor
  · rw [nse_scatter_matrix]
    · split_ifs <;> rfl
    · exact hd
  · intro d2 hd2
    have hchk : ∀ dd, signal_effective_from_signal resample sqrt3 sqrt3o20 sqrt15 D2 q2
        eps2 kappa2 Dsub_req dd
        = (let Dsub1 := if Dsub_req < 2 then 2 else Dsub_req
           let Dsub2 := if Dsub1 > D2 then D2 else Dsub1
           let nskip_per_step := cround D2 Dsub2
           let Dsub := cround D2 nskip_per_step
           let D_scale := nse_discretization_D_scale dd
           if D_scale = 0 then .error .InvalidArgument
           else
             let D_effective := Dsub * D_scale
             let fl := (0, (Dsub - 1) * nskip_per_step)
             match dd with
             | .BO =>
               let qr := boFill q2 kappa2 nskip_per_step D_effective 0
               .ok (Dsub, qr.1, qr.2, fl)
             | .CF4_2 =>
               match resample D2 eps2 q2 (-eps2 * (sqrt3 / 6) * nskip_per_step) with
               | .error e => .error e
               | .ok q_1 =>
                 match resample D2 eps2 q2 (eps2 * (sqrt3 / 6) * nskip_per_step) with
                 | .error e => .error e
                 | .ok q_2 =>
                   let qr := cf42Fill q_1 q_2 kappa2 nskip_per_step (sqrt3 / 6)
                     (D_effective / 2) 0
                   .ok (Dsub, qr.1, qr.2, fl)
             | .CF4_3 =>
               match resample D2 eps2 q2 (-eps2 * sqrt3o20 * nskip_per_step) with
               | .error e => .error e
               | .ok q_1 =>
                 match resample D2 eps2 q2 (eps2 * sqrt3o20 * nskip_per_step) with
                 | .error e => .error e
                 | .ok q_3 =>
                   let qr := cf43Fill q_1 q2 q_3 kappa2 nskip_per_step (D_effective / 3) 0
                   .ok (Dsub, qr.1, qr.2, fl)
             | .CF5_3 =>
               match resample D2 eps2 q2 (-eps2 * (sqrt15 / 10) * nskip_per_step) with
               | .error e => .error e
               | .ok q_1 =>
                 match resample D2 eps2 q2 (eps2 * (sqrt15 / 10) * nskip_per_step) with
                 | .error e => .error e
                 | .ok q_3 =>
                   let r_1 := (List.range D2).map
                     (fun i => CQ.ofInt (-kappa2) * CQ.conj (q_1.getD i 0))
                   let r_2 := (List.range D2).map
                     (fun i => CQ.ofInt (-kappa2) * CQ.conj (q2.getD i 0))
                   let r_3 := (List.range D2).map
                     (fun i => CQ.ofInt (-kappa2) * CQ.conj (q_3.getD i 0))
                   let qr := cf53Fill q_1 q2 q_3 r_1 r_2 r_3 nskip_per_step
                     (D_effective / 3) 0
                   .ok (Dsub, qr.1, qr.2, fl)
             | .CF6_4 =>
               match resample D2 eps2 q2 (-eps2 * nskip_per_step * (sqrt15 / 10)) with
               | .error e => .error e
               | .ok q_1 =>
                 match resample D2 eps2 q2 (eps2 * nskip_per_step * (sqrt15 / 10)) with
                 | .error e => .error e
                 | .ok q_3 =>
                   let r_1 := (List.range D2).map
                     (fun i => CQ.ofInt (-kappa2) * CQ.conj (q_1.getD i 0))
                   let r_2 := (List.range D2).map
                     (fun i => CQ.ofInt (-kappa2) * CQ.conj (q2.getD i 0))
                   let r_3 := (List.range D2).map
                     (fun i => CQ.ofInt (-kappa2) * CQ.conj (q_3.getD i 0))
                   let qr := cf64Fill q_1 q2 q_3 r_1 r_2 r_3 nskip_per_step
                     (D_effective / 4) 0
                   .ok (Dsub, qr.1, qr.2, fl)
             | .ES4 =>
               let vals := es4Values q2 nskip_per_step D_effective D_effective 0 0
                 (List.replicate D_effective 0)
               let eps_t_sub := eps2 * nskip_per_step
               let eps_t_sub2 := eps_t_sub ^ 2
               let b1 := vals.set 1 ((vals.getD 3 0 - vals.getD 0 0) / CQ.ofRat eps_t_sub)
               let b2 := b1.set 2 ((b1.getD 6 0 - CQ.ofRat 2 * b1.getD 3 0 + b1.getD 0 0)
                 / CQ.ofRat eps_t_sub2)
               let b3 := b2.set (D_effective - 2)
                 ((b2.getD (D_effective - 3) 0 - b2.getD (D_effective - 6) 0)
                   / CQ.ofRat eps_t_sub)
               let b4 := b3.set (D_effective - 1)
                 ((b3.getD (D_effective - 3) 0 - CQ.ofRat 2 * b3.getD (D_effective - 6) 0
                   + b3.getD (D_effective - 9) 0) / CQ.ofRat eps_t_sub2)
               let qe := es4Interior eps_t_sub eps_t_sub2 D_effective D_effective 3 b4
               let re := (List.range D_effective).map
                 (fun i => CQ.ofInt (-kappa2) * CQ.conj (qe.getD i 0))
               .ok (Dsub, qe, re, fl)
             | .TES4 =>
               let vals := es4Values q2 nskip_per_step D_effective D_effective 0 0
                 (List.replicate D_effective 0)
               let eps_t_sub := eps2 * nskip_per_step
               let eps_t_sub2 := eps_t_sub ^ 2
               let b1 := vals.set 1 ((vals.getD 3 0 - vals.getD 0 0) / CQ.ofRat eps_t_sub)
               let b2 := b1.set 2 ((b1.getD 6 0 - CQ.ofRat 2 * b1.getD 3 0 + b1.getD 0 0)
                 / CQ.ofRat eps_t_sub2)
               let b3 := b2.set (D_effective - 2)
                 ((b2.getD (D_effective - 3) 0 - b2.getD (D_effective - 6) 0)
                   / CQ.ofRat eps_t_sub)
               let b4 := b3.set (D_effective - 1)
                 ((b3.getD (D_effective - 3) 0 - CQ.ofRat 2 * b3.getD (D_effective - 6) 0
                   + b3.getD (D_effective - 9) 0) / CQ.ofRat eps_t_sub2)
               let qe := es4Interior eps_t_sub eps_t_sub2 D_effective D_effective 3 b4
               let re := (List.range D_effective).map
                 (fun i => CQ.ofInt (-kappa2) * CQ.conj (qe.getD i 0))
               .ok (Dsub, qe, re, fl)) := by
      intro dd
      rw [signal_effective_from_signal, if_neg (by omega), if_neg (not_le.mpr heps2),
        if_neg (by simp [hkap2])]
    rw [hchk d2]
    obtain ⟨l1, hl1⟩ := hres D2 eps2 q2 (-eps2 * (sqrt3 / 6)
      * (cround D2 (if (if Dsub_req < 2 then 2 else Dsub_req) > D2 then D2
          else (if Dsub_req < 2 then 2 else Dsub_req))))
    cases d2 with
    | BO => exact absurd rfl hd2
    | CF4_2 =>
      rw [if_neg (by simp [nse_discretization_D_scale])]
      obtain ⟨la, hla⟩ := hres D2 eps2 q2 (-eps2 * (sqrt3 / 6)
        * (cround D2 (if (if Dsub_req < 2 then 2 else Dsub_req) > D2 then D2
            else (if Dsub_req < 2 then 2 else Dsub_req))))
      obtain ⟨lb, hlb⟩ := hres D2 eps2 q2 (eps2 * (sqrt3 / 6)
        * (cround D2 (if (if Dsub_req < 2 then 2 else Dsub_req) > D2 then D2
            else (if Dsub_req < 2 then 2 else Dsub_req))))
      rw [hla, hlb]
      exact ⟨_, rfl⟩
    | CF4_3 =>
      rw [if_neg (by simp [nse_discretization_D_scale])]
      obtain ⟨la, hla⟩ := hres D2 eps2 q2 (-eps2 * sqrt3o20
        * (cround D2 (if (if Dsub_req < 2 then 2 else Dsub_req) > D2 then D2
            else (if Dsub_req < 2 then 2 else Dsub_req))))
      obtain ⟨lb, hlb⟩ := hres D2 eps2 q2 (eps2 * sqrt3o20
        * (cround D2 (if (if Dsub_req < 2 then 2 else Dsub_req) > D2 then D2
            else (if Dsub_req < 2 then 2 else Dsub_req))))
      rw [hla, hlb]
      exact ⟨_, rfl⟩
    | CF5_3 =>
      rw [if_neg (by simp [nse_discretization_D_scale])]
      obtain ⟨la, hla⟩ := hres D2 eps2 q2 (-eps2 * (sqrt15 / 10)
        * (cround D2 (if (if Dsub_req < 2 then 2 else Dsub_req) > D2 then D2
            else (if Dsub_req < 2 then 2 else Dsub_req))))
      obtain ⟨lb, hlb⟩ := hres D2 eps2 q2 (eps2 * (sqrt15 / 10)
        * (cround D2 (if (if Dsub_req < 2 then 2 else Dsub_req) > D2 then D2
            else (if Dsub_req < 2 then 2 else Dsub_req))))
      rw [hla, hlb]
      exact ⟨_, rfl⟩
    | CF6_4 =>
      rw [if_neg (by simp [nse_discretization_D_scale])]
      obtain ⟨la, hla⟩ := hres D2 eps2 q2 (-eps2
        * (cround D2 (if (if Dsub_req < 2 then 2 else Dsub_req) > D2 then D2
            else (if Dsub_req < 2 then 2 else Dsub_req))) * (sqrt15 / 10))
      obtain ⟨lb, hlb⟩ := hres D2 eps2 q2 (eps2
        * (cround D2 (if (if Dsub_req < 2 then 2 else Dsub_req) > D2 then D2
            else (if Dsub_req < 2 then 2 else Dsub_req))) * (sqrt15 / 10))
      rw [hla, hlb]
      exact ⟨_, rfl⟩
    | ES4 =>
      rw [if_neg (by simp [nse_discretization_D_scale])]
      exact ⟨_, rfl⟩
    | TES4 =>
      rw [if_neg (by simp [nse_discretization_D_scale])]
      exact ⟨_, rfl⟩

/-- Witness for `nse_scatter_matrix_only_BO`: `CF4_2` is rejected by the
scatter-matrix entry point while the resampler accepts `ES4` on a
concrete 3-sample signal. -/
theorem nse_scatter_matrix_only_BO_witness :
    nse_scatter_matrix (fun _ _ _ _ _ _ => .ok []) 1 (some []) 1 1 1 (some [])
        (some []) .CF4_2 = .error .InvalidArgument
    ∧ ∃ out, signal_effective_from_signal (fun Dx _ _ _ => .ok (List.replicate Dx 0))
        1 1 1 3 [0, 0, 0] 1 1 3 .ES4 = .ok out := by
  obtain ⟨h1, h2⟩ := nse_scatter_matrix_only_BO (fun _ _ _ _ _ _ => .ok []) 1 (some [])
    1 1 1 (some []) (some []) .CF4_2 (by decide)
    (fun Dx _ _ _ => .ok (List.replicate Dx 0)) 1 1 1 3 [0, 0, 0] 1 1 3
    (by norm_num) (by norm_num) (by decide)
    (fun Dx ex qx dx => ⟨List.replicate Dx 0, rfl⟩)
  exact ⟨h1, h2 .ES4 (by decide)⟩

/-! ## `fnft_nsev_slow_base` (lines 324–531) -/

/-- The outputs of a base/primary run: final contents of the caller's
output buffers and the reported bound-state count `*K_ptr`. -/
structure BaseOut where
  contspec : Option (List CQ)
  K : Option ℕ
  bound_states : Option (List CQ)
  normconsts : Option (List CQ)
  deriving DecidableEq, Repr

/-- The `XI == NULL || XI[0] >= XI[1]` test. -/
def xiInvalid (XI : Option (ℚ × ℚ)) : Prop :=
  match XI with
  | none => True
  | some p => p.2 ≤ p.1

instance (XI : Option (ℚ × ℚ)) : Decidable (xiInvalid XI) := by
  unfold xiInvalid
  cases XI <;> infer_instance

/-- The continuous-spectrum part of `fnft_nsev_slow_base` (grid build,
engine call, assembler), executed when `contspec != NULL && M > 0`. -/
def base_contspec_part
    (scatterM : List CQ → List CQ → ℚ → List CQ → Except Err (List (CQ × CQ × CQ × CQ)))
    (cexp : CQ → CQ) (boundary_coeff : ℚ)
    (q r : List CQ) (eps_t T0 T1 : ℚ) (M : ℕ)
    (contspec : Option (List CQ)) (XI : Option (ℚ × ℚ)) (cstype : CsType) :
    Except Err (Option (List CQ)) :=
  match contspec with
  | none => .ok none
  | some cbuf =>
    if M = 0 then .ok (some cbuf)
    else
      let XI0 := (XI.getD (0, 0)).1
      let XI1 := (XI.getD (0, 0)).2
      let eps_xi := (XI1 - XI0) / ((M - 1 : ℕ) : ℚ)
      let xi := (List.range M).map (fun i => CQ.ofRat (XI0 + eps_xi * (i : ℚ)))
      match scatterM q r eps_t xi with
      | .error e => .error e
      | .ok coeffs =>
        match contspec_compute cexp M XI0 XI1 T0 T1 eps_t boundary_coeff cstype
            coeffs cbuf with
        | .error e => .error e
        | .ok cbuf' => .ok (some cbuf')

/-- The discrete-spectrum part of `fnft_nsev_slow_base` (Newton
localization, filtering, merging, norming constants), executed when
`kappa == +1 && bound_states != NULL`.  Note that the norming-constant
computation receives `*K_ptr` — the candidate count before filtering —
and that the filtered count is stored to `*K_ptr` only afterwards. -/
def base_discrete_part
    (scatterBS : List CQ → List CQ → CQ → Except Err (CQ × CQ × CQ))
    (piQ : ℚ) (l2 : ℕ → List CQ → ℚ → ℚ → ℚ)
    (D D_scale D_given : ℕ) (q r : List CQ) (T0 T1 eps_t : ℚ)
    (K_ptr : Option ℕ) (bsbuf : List CQ)
    (normconsts_or_residues : Option (List CQ)) (opts : Opts) :
    Except Err (ℕ × List CQ × Option (List CQ)) :=
  match opts.bound_state_localization with
  | .NEWTON =>
    let K0 := K_ptr.getD 0
    match refine_roots_newton (scatterBS q r) l2 piQ D q T0 T1 K0 bsbuf
        opts.discretization opts.niter with
    | .error e => .error e
    | .ok buffer1 =>
      let step1 :=
        if opts.bound_state_filtering ≠ .NONE then
          misc_filter K0 buffer1 ⟨.ninf, .pinf, .fin 0, .pinf⟩
        else (K0, buffer1)
      let step2 :=
        if opts.bound_state_filtering = .FULL then
          let reB := re_bound piQ eps_t
          let imB :=
            if D_scale = 1 then im_bound l2 D_given q T0 T1
            else im_bound l2 D_given
              ((List.range D_given).map
                (fun i => CQ.ofRat (D_scale : ℚ) * q.getD (1 + i * D_scale) 0)) T0 T1
          misc_filter step1.1 step1.2 ⟨.fin (-reB), .fin reB, .fin 0, .fin imB⟩
        else step1
      let step3 := misc_merge EPSILON step2.1 step2.2
      match ((match normconsts_or_residues with
             | some ncbuf =>
               if K_ptr.getD 0 ≠ 0 then
                 match compute_normconsts_or_residues (scatterBS q r) D q (K_ptr.getD 0)
                     step3.2 ncbuf opts.discspec_type with
                 | .error e => .error e
                 | .ok ncbuf' => .ok (some ncbuf')
               else .ok (some ncbuf)
             | none => .ok none) : Except Err (Option (List CQ))) with
      | .error e => .error e
      | .ok nc' => .ok (step3.1, step3.2, nc')
  | _ => .error .InvalidArgument

/-- `fnft_nsev_slow_base` of `fnft_nsev_slow.c`: argument checks, step
size, continuous-spectrum part, discrete-spectrum part (with
`*K_ptr = K` stored after the norming-constant computation), and the
`*K_ptr = 0` write when the discrete spectrum is not computed but
`K_ptr` is present. -/
def fnft_nsev_slow_base
    (scatterM : List CQ → List CQ → ℚ → List CQ → Except Err (List (CQ × CQ × CQ × CQ)))
    (scatterBS : List CQ → List CQ → CQ → Except Err (CQ × CQ × CQ))
    (cexp : CQ → CQ) (piQ : ℚ) (l2 : ℕ → List CQ → ℚ → ℚ → ℚ)
    (boundary_coeff : Discretization → ℚ)
    (D : ℕ) (q r : List CQ) (T0 T1 : ℚ) (M : ℕ)
    (contspec : Option (List CQ)) (XI : Option (ℚ × ℚ))
    (K_ptr : Option ℕ) (bound_states : Option (List CQ))
    (normconsts_or_residues : Option (List CQ))
    (kappa : ℤ) (opts : Opts) : Except Err BaseOut :=
  if D < 2 then .error .InvalidArgument
  else if T1 ≤ T0 then .error .InvalidArgument
  else if contspec ≠ none ∧ xiInvalid XI then .error .InvalidArgument
  else if kappa.natAbs ≠ 1 then .error .InvalidArgument
  else if bound_states ≠ none ∧ K_ptr = none then .error .InvalidArgument
  else
    let D_scale := nse_discretization_D_scale opts.discretization
    if D_scale = 0 then .error .InvalidArgument
    else
      let D_given := D / D_scale
      let eps_t := (T1 - T0) / ((D_given - 1 : ℕ) : ℚ)
      match base_contspec_part scatterM cexp (boundary_coeff opts.discretization)
          q r eps_t T0 T1 M contspec XI opts.contspec_type with
      | .error e => .error e
      | .ok cs' =>
        if kappa = 1 ∧ bound_states ≠ none then
          match base_discrete_part scatterBS piQ l2 D D_scale D_given q r T0 T1 eps_t
              K_ptr (bound_states.getD []) normconsts_or_residues opts with
          | .error e => .error e
          | .ok (K3, buffer4, nc') =>
            .ok { contspec := cs', K := some K3, bound_states := some buffer4,
                  normconsts := nc' }
        else
          .ok { contspec := cs',
                K := if K_ptr ≠ none then some 0 else none,
                bound_states := bound_states,
                normconsts := normconsts_or_residues }

/-! ## `fnft_nsev_slow` (lines 117–323) -/

/-- The Richardson-extrapolation block of `fnft_nsev_slow` (lines
194–318): scratch-buffer setup, sub-sampled re-run of the base routine
with Newton localization, and the extrapolation steps on the continuous
spectrum, the bound states and the residues.  `opts2` is the options
record as mutated at lines 168–177 (`discspec_type` switched to `BOTH`
when residues were requested), `ds_type_opt` the saved original
discrete-spectrum type, `K0` the value `*K_ptr` held on entry to the
primary routine (used for the reserve-buffer size at line 172), and
`out1` the buffer state left by the main base run. -/
def richardson_block
    (scatterM : List CQ → List CQ → ℚ → List CQ → Except Err (List (CQ × CQ × CQ × CQ)))
    (scatterBS : List CQ → List CQ → CQ → Except Err (CQ × CQ × CQ))
    (cexp : CQ → CQ) (piQ : ℚ) (l2 : ℕ → List CQ → ℚ → ℚ → ℚ)
    (boundary_coeff : Discretization → ℚ)
    (resample : ℕ → ℚ → List CQ → ℚ → Except Err (List CQ))
    (sqrt3 sqrt3o20 sqrt15 : ℚ) (method_order : Discretization → ℕ)
    (D : ℕ) (q : List CQ) (T0 T1 : ℚ) (M : ℕ)
    (contspec : Option (List CQ)) (XI : Option (ℚ × ℚ))
    (bound_states : Option (List CQ)) (kappa : ℤ) (opts2 : Opts)
    (ds_type_opt : DsType) (eps_t : ℚ) (D_scale K0 : ℕ)
    (out1 : BaseOut) : Except Err BaseOut :=
  let contspec_len : ℕ :=
    if contspec ≠ none ∧ 0 < M then
      match opts2.contspec_type with
      | .BOTH => 3 * M
      | .REFLECTION_COEFFICIENT => M
      | .AB => 2 * M
    else 0
  let contspec_sub : Option (List CQ) :=
    if contspec ≠ none ∧ 0 < M then some (List.replicate contspec_len 0) else none
  let dguard : Prop := kappa = 1 ∧ bound_states ≠ none ∧ out1.K.getD 0 ≠ 0
  let K_sub : ℕ := if dguard then out1.K.getD 0 else 0
  let bound_states_sub : Option (List CQ) :=
    if dguard then some ((out1.bound_states.getD []).take K_sub) else none
  let discspec_len : ℕ :=
    match opts2.discspec_type with
    | .BOTH => 2 * K_sub
    | .RESIDUES => 2 * K_sub
    | .NORMING_CONSTANTS => K_sub
  let normconsts_sub : Option (List CQ) :=
    if dguard then some (List.replicate discspec_len 0) else none
  if method_order opts2.discretization = 0 then .error .InvalidArgument
  else
    match signal_effective_from_signal resample sqrt3 sqrt3o20 sqrt15 D q eps_t kappa
        (D / 2) opts2.discretization with
    | .error e => .error e
    | .ok (Dsub, q_eff, r_eff, fli) =>
      let Tsub0 := T0 + (fli.1 : ℚ) * eps_t
      let Tsub1 := T0 + (fli.2 : ℚ) * eps_t
      let eps_t_sub := (Tsub1 - Tsub0) / ((Dsub - 1 : ℕ) : ℚ)
      match fnft_nsev_slow_base scatterM scatterBS cexp piQ l2 boundary_coeff
          (Dsub * D_scale) q_eff r_eff Tsub0 Tsub1 M contspec_sub XI
          (some K_sub) bound_states_sub normconsts_sub kappa
          { opts2 with bound_state_localization := .NEWTON } with
      | .error e => .error e
      | .ok out2 =>
        let K_sub2 := out2.K.getD K_sub
        let scl_num := ((D : ℚ) / (Dsub : ℚ)) ^ method_order opts2.discretization
        let XI0 := (XI.getD (0, 0)).1
        let XI1 := (XI.getD (0, 0)).2
        let cs_final : Option (List CQ) :=
          if contspec ≠ none ∧ 0 < M then
            some (richardson_contspec_step M contspec_len XI0 XI1 eps_t_sub piQ scl_num
              (out2.contspec.getD []) (out1.contspec.getD []))
          else out1.contspec
        let K := out1.K.getD 0
        if kappa = 1 ∧ bound_states ≠ none ∧ K ≠ 0 ∧ K_sub2 ≠ 0 then
          let nc1 := out1.normconsts.getD []
          let reserve0 :=
            if ds_type_opt = .RESIDUES then List.replicate (2 * K0) (0 : CQ) else nc1
          let dsflag := ds_type_opt = .RESIDUES ∨ ds_type_opt = .BOTH
          let st := richardson_bs_step eps_t scl_num K K_sub2 (out2.bound_states.getD [])
              (decide dsflag) (out1.bound_states.getD []) reserve0
              (out2.normconsts.getD [])
          let nc_final : Option (List CQ) :=
            match out1.normconsts with
            | none => none
            | some nc1v =>
              some (if ds_type_opt = .RESIDUES then (st.2.1.drop K).take K ++ nc1v.drop K
                    else st.2.1)
          .ok { contspec := cs_final, K := out1.K, bound_states := some st.1,
                normconsts := nc_final }
        else
          .ok { contspec := cs_final, K := out1.K, bound_states := out1.bound_states,
                normconsts := out1.normconsts }

/-- `fnft_nsev_slow` of `fnft_nsev_slow.c` (lines 117–323): input
validation, the `RESIDUES → BOTH` option switch for Richardson runs,
step size, resampling, the main base run, and the optional Richardson
block.  The nullable pointers `q`, `T`, `contspec`, `XI`, `K_ptr`,
`bound_states` and `normconsts_or_residues` are `Option`s. -/
def fnft_nsev_slow
    (scatterM : List CQ → List CQ → ℚ → List CQ → Except Err (List (CQ × CQ × CQ × CQ)))
    (scatterBS : List CQ → List CQ → CQ → Except Err (CQ × CQ × CQ))
    (cexp : CQ → CQ) (piQ : ℚ) (l2 : ℕ → List CQ → ℚ → ℚ → ℚ)
    (boundary_coeff : Discretization → ℚ)
    (resample : ℕ → ℚ → List CQ → ℚ → Except Err (List CQ))
    (sqrt3 sqrt3o20 sqrt15 : ℚ) (method_order : Discretization → ℕ)
    (D : ℕ) (q : Option (List CQ)) (T : Option (ℚ × ℚ)) (M : ℕ)
    (contspec : Option (List CQ)) (XI : Option (ℚ × ℚ))
    (K_ptr : Option ℕ) (bound_states : Option (List CQ))
    (normconsts_or_residues : Option (List CQ))
    (kappa : ℤ) (opts : Opts) : Except Err BaseOut :=
  if D < 2 then .error .InvalidArgument
  else if q = none then .error .InvalidArgument
  else if T = none ∨ (T.getD (0, 0)).2 ≤ (T.getD (0, 0)).1 then .error .InvalidArgument
  else if contspec ≠ none ∧ xiInvalid XI then .error .InvalidArgument
  else if kappa.natAbs ≠ 1 then .error .InvalidArgument
  else if bound_states ≠ none ∧ K_ptr = none then .error .InvalidArgument
  else
    let q0 := q.getD []
    let T0 := (T.getD (0, 0)).1
    let T1 := (T.getD (0, 0)).2
    let eps_t := (T1 - T0) / ((D - 1 : ℕ) : ℚ)
    let ds_type_opt := opts.discspec_type
    let opts2 :=
      if opts.richardson_extrapolation_flag = true ∧ ds_type_opt = .RESIDUES then
        { opts with discspec_type := .BOTH }
      else opts
    let D_scale := nse_discretization_D_scale opts.discretization
    if D_scale = 0 then .error .InvalidArgument
    else
      match signal_effective_from_signal resample sqrt3 sqrt3o20 sqrt15 D q0 eps_t kappa
          D opts.discretization with
      | .error e => .error e
      | .ok (_, q_eff, r_eff, _) =>
        match fnft_nsev_slow_base scatterM scatterBS cexp piQ l2 boundary_coeff
            (D * D_scale) q_eff r_eff T0 T1 M contspec XI K_ptr bound_states
            normconsts_or_residues kappa opts2 with
        | .error e => .error e
        | .ok out1 =>
          if opts.richardson_extrapolation_flag then
            richardson_block scatterM scatterBS cexp piQ l2 boundary_coeff resample
              sqrt3 sqrt3o20 sqrt15 method_order D q0 T0 T1 M contspec XI
              bound_states kappa opts2 ds_type_opt eps_t D_scale (K_ptr.getD 0) out1
          else .ok out1

/-- C7: a call of the primary entry point `fnft_nsev_slow` with `D < 2`,
or a null `q`, or a null `T` or `T[0] >= T[1]`, or a non-null `contspec`
together with a null `XI` or `XI[0] >= XI[1]`, or `|kappa| != 1`, or a
non-null `bound_states` together with a null `K_ptr`, returns the
`InvalidArgument` status code — for every scattering engine, resampler
and constant oracle, so before any computation is performed — and, being
an error return, leaves every output buffer unwritten. -/
theorem nsev_slow_input_validation
    (scatterM : List CQ → List CQ → ℚ → List CQ → Except Err (List (CQ × CQ × CQ × CQ)))
    (scatterBS : List CQ → List CQ → CQ → Except Err (CQ × CQ × CQ))
    (cexp : CQ → CQ) (piQ : ℚ) (l2 : ℕ → List CQ → ℚ → ℚ → ℚ)
    (boundary_coeff : Discretization → ℚ)
    (resample : ℕ → ℚ → List CQ → ℚ → Except Err (List CQ))
    (sqrt3 sqrt3o20 sqrt15 : ℚ) (method_order : Discretization → ℕ)
    (D : ℕ) (q : Option (List CQ)) (T : Option (ℚ × ℚ)) (M : ℕ)
    (contspec : Option (List CQ)) (XI : Option (ℚ × ℚ))
    (K_ptr : Option ℕ) (bound_states : Option (List CQ))
    (normconsts_or_residues : Option (List CQ)) (kappa : ℤ) (opts : Opts)
    (h : D < 2 ∨ q = none ∨ T = none ∨ (T.getD (0, 0)).2 ≤ (T.getD (0, 0)).1 ∨
      (contspec ≠ none ∧ xiInvalid XI) ∨ kappa.natAbs ≠ 1 ∨
      (bound_states ≠ none ∧ K_ptr = none)) :
    fnft_nsev_slow scatterM scatterBS cexp piQ l2 boundary_coeff resample
      sqrt3 sqrt3o20 sqrt15 method_order D q T M contspec XI K_ptr bound_states
      normconsts_or_residues kappa opts = .error .InvalidArgument := by
  rw [fnft_nsev_slow]
  split_ifs <;> first | rfl | tauto

/-- The validation theorem applied at the concrete input `D = 0` with
every buffer null. -/
theorem nsev_slow_input_validation_witness :
    fnft_nsev_slow (fun _ _ _ _ => .ok []) (fun _ _ _ => .ok (0, 0, 0))
      (fun z => z) 0 (fun _ _ _ _ => 0) (fun _ => 0) (fun _ _ _ _ => .ok [])
      0 0 0 (fun _ => 1) 0 none none 0 none none none none none 1 default_opts
      = .error .InvalidArgument := by
  exact nsev_slow_input_validation _ _ _ _ _ _ _ _ _ _ _ _ _ _ _ _ _ _ _ _ _ _
    (Or.inl (by decide))

/-- When the discrete-spectrum guard `kappa == +1 && bound_states != NULL`
of the base routine fails, a successful base run stores zero through
`K_ptr` and leaves the bound-state and norming-constant buffers
untouched (lines 523–525). -/
theorem base_no_discrete
    {scatterM : List CQ → List CQ → ℚ → List CQ → Except Err (List (CQ × CQ × CQ × CQ))}
    {scatterBS : List CQ → List CQ → CQ → Except Err (CQ × CQ × CQ)}
    {cexp : CQ → CQ} {piQ : ℚ} {l2 : ℕ → List CQ → ℚ → ℚ → ℚ}
    {boundary_coeff : Discretization → ℚ}
    {D : ℕ} {q r : List CQ} {T0 T1 : ℚ} {M : ℕ}
    {contspec : Option (List CQ)} {XI : Option (ℚ × ℚ)}
    {K_ptr : Option ℕ} {bound_states normconsts_or_residues : Option (List CQ)}
    {kappa : ℤ} {opts : Opts} {out : BaseOut}
    (hng : ¬(kappa = 1 ∧ bound_states ≠ none))
    (h : fnft_nsev_slow_base scatterM scatterBS cexp piQ l2 boundary_coeff
      D q r T0 T1 M contspec XI K_ptr bound_states normconsts_or_residues
      kappa opts = .ok out) :
    out.K = (if K_ptr ≠ none then some 0 else none) ∧
    out.bound_states = bound_states ∧
    out.normconsts = normconsts_or_residues := by
  simp only [fnft_nsev_slow_base] at h
  split_ifs at h <;> try exact Except.noConfusion h
  all_goals try exact absurd (by assumption : kappa = 1 ∧ bound_states ≠ none) hng
  all_goals split at h
  all_goals try exact Except.noConfusion h
  all_goals (
    simp only [Except.ok.injEq] at h
    subst h
    simp_all)

/-- When the discrete-spectrum guard fails, a successful run of the
Richardson block leaves the reported count, the bound-state buffer and
the norming-constant buffer exactly as the main base run left them. -/
theorem richardson_block_no_discrete
    {scatterM : List CQ → List CQ → ℚ → List CQ → Except Err (List (CQ × CQ × CQ × CQ))}
    {scatterBS : List CQ → List CQ → CQ → Except Err (CQ × CQ × CQ)}
    {cexp : CQ → CQ} {piQ : ℚ} {l2 : ℕ → List CQ → ℚ → ℚ → ℚ}
    {boundary_coeff : Discretization → ℚ}
    {resample : ℕ → ℚ → List CQ → ℚ → Except Err (List CQ)}
    {sqrt3 sqrt3o20 sqrt15 : ℚ} {method_order : Discretization → ℕ}
    {D : ℕ} {q : List CQ} {T0 T1 : ℚ} {M : ℕ}
    {contspec : Option (List CQ)} {XI : Option (ℚ × ℚ)}
    {bound_states : Option (List CQ)} {kappa : ℤ} {opts2 : Opts}
    {ds_type_opt : DsType} {eps_t : ℚ} {D_scale K0 : ℕ} {out1 out : BaseOut}
    (hng : ¬(kappa = 1 ∧ bound_states ≠ none))
    (h : richardson_block scatterM scatterBS cexp piQ l2 boundary_coeff resample
      sqrt3 sqrt3o20 sqrt15 method_order D q T0 T1 M contspec XI bound_states
      kappa opts2 ds_type_opt eps_t D_scale K0 out1 = .ok out) :
    out.K = out1.K ∧ out.bound_states = out1.bound_states ∧
    out.normconsts = out1.normconsts := by
  have hne3 : ∀ (p : Prop), (kappa = 1 ∧ bound_states ≠ none ∧ p) = False :=
    fun p => eq_false (fun hc => hng ⟨hc.1, hc.2.1⟩)
  simp only [richardson_block, hne3, if_false] at h
  split at h
  · exact Except.noConfusion h
  · split at h
    · exact Except.noConfusion h
    · split at h
      · exact Except.noConfusion h
      · simp only [Except.ok.injEq] at h
        subst h
        exact ⟨rfl, rfl, rfl⟩

set_option maxHeartbeats 2000000 in
/-- C10: a successful call of the primary entry point `fnft_nsev_slow`
with defocusing sign `kappa = -1` or a null `bound_states` buffer, and a
non-null `K_ptr`, reports a bound-state count of zero through `K_ptr`
and leaves the `bound_states` and `normconsts_or_residues` buffers
exactly as they were passed in. -/
theorem nsev_slow_no_discrete_frame
    {scatterM : List CQ → List CQ → ℚ → List CQ → Except Err (List (CQ × CQ × CQ × CQ))}
    {scatterBS : List CQ → List CQ → CQ → Except Err (CQ × CQ × CQ)}
    {cexp : CQ → CQ} {piQ : ℚ} {l2 : ℕ → List CQ → ℚ → ℚ → ℚ}
    {boundary_coeff : Discretization → ℚ}
    {resample : ℕ → ℚ → List CQ → ℚ → Except Err (List CQ)}
    {sqrt3 sqrt3o20 sqrt15 : ℚ} {method_order : Discretization → ℕ}
    {D : ℕ} {q : Option (List CQ)} {T : Option (ℚ × ℚ)} {M : ℕ}
    {contspec : Option (List CQ)} {XI : Option (ℚ × ℚ)}
    {K_ptr : Option ℕ} {bound_states normconsts_or_residues : Option (List CQ)}
    {kappa : ℤ} {opts : Opts} {out : BaseOut} {k0 : ℕ}
    (hk : kappa = -1 ∨ bound_states = none) (hK : K_ptr = some k0)
    (h : fnft_nsev_slow scatterM scatterBS cexp piQ l2 boundary_coeff resample
      sqrt3 sqrt3o20 sqrt15 method_order D q T M contspec XI K_ptr bound_states
      normconsts_or_residues kappa opts = .ok out) :
    out.K = some 0 ∧ out.bound_states = bound_states ∧
    out.normconsts = normconsts_or_residues := by
  have hng : ¬(kappa = 1 ∧ bound_states ≠ none) := by
    rcases hk with hk | hk
    · rintro ⟨h1, _⟩
      rw [hk] at h1
      exact absurd h1 (by decide)
    · rintro ⟨_, h2⟩
      exact h2 hk
  simp only [fnft_nsev_slow] at h
  split_ifs at h <;> try exact Except.noConfusion h
  all_goals split at h
  all_goals try exact Except.noConfusion h
  all_goals split at h
  all_goals try exact Except.noConfusion h
  all_goals rename_i out1 hbase
  all_goals (
    obtain ⟨hK1, hbs1, hnc1⟩ := base_no_discrete hng hbase
    rw [hK, if_pos (by simp)] at hK1)
  all_goals try (
    simp only [Except.ok.injEq] at h
    subst h
    exact ⟨hK1, hbs1, hnc1⟩)
  all_goals (
    obtain ⟨hK2, hbs2, hnc2⟩ := richardson_block_no_discrete hng h
    exact ⟨hK2.trans hK1, hbs2.trans hbs1, hnc2.trans hnc1⟩)

/-- The frame theorem applied to a concrete successful defocusing run
(`D = 2`, `kappa = -1`, null `bound_states`, `*K_ptr = 5` on entry). -/
theorem nsev_slow_no_discrete_frame_witness :
    (some 0 : Option ℕ) = some 0 ∧ (none : Option (List CQ)) = none ∧
      (none : Option (List CQ)) = none := by
  have h : fnft_nsev_slow (fun _ _ _ _ => .ok []) (fun _ _ _ => .ok (0, 0, 0))
      (fun z => z) 0 (fun _ _ _ _ => 0) (fun _ => 0) (fun _ _ _ _ => .ok [])
      0 0 0 (fun _ => 1) 2 (some [0, 0]) (some (0, 1)) 0 none none (some 5) none
      none (-1) default_opts
      = .ok { contspec := none, K := some 0, bound_states := none,
              normconsts := none } := by
    norm_num [fnft_nsev_slow, fnft_nsev_slow_base, base_contspec_part,
      signal_effective_from_signal, nse_discretization_D_scale, xiInvalid,
      default_opts, cround, boFill]
    simp
  exact nsev_slow_no_discrete_frame (Or.inl rfl) rfl h

/-- C2: a concrete successful base run on which the norming-constant
calculator is invoked for the candidate count `*K_ptr` held before
filtering, not for the retained count: of the two Newton candidates
`i` and `-i`, only `i` survives the half-plane filter (the reported
count is 1), yet the calculator writes two outputs — slot 1 of the
norming-constant buffer changes from `0` to `-i`, the value belonging
to the dropped candidate. -/
theorem normconsts_computed_for_prefilter_count :
    fnft_nsev_slow_base (fun _ _ _ _ => .ok []) (fun _ _ s => .ok (s, ⟨1, 0⟩, s))
      (fun z => z) 0 (fun _ _ _ _ => 0) (fun _ => 0)
      2 [0, 0] [0, 0] 0 1 0 none none (some 2) (some [⟨0, 1⟩, ⟨0, -1⟩])
      (some [0, 0]) 1
      { bound_state_filtering := .BASIC, bound_state_localization := .NEWTON,
        niter := 0, discspec_type := .NORMING_CONSTANTS,
        contspec_type := .REFLECTION_COEFFICIENT, normalization_flag := false,
        discretization := .BO, richardson_extrapolation_flag := false }
      = .ok { contspec := none, K := some 1,
              bound_states := some [⟨0, 1⟩, ⟨0, -1⟩],
              normconsts := some [⟨0, 1⟩, ⟨0, -1⟩] } := by
  norm_num [fnft_nsev_slow_base, base_contspec_part, base_discrete_part,
    refine_roots_newton, misc_filter, misc_merge, compute_normconsts_or_residues,
    mapExcept, writeSeq, nse_discretization_D_scale, Box.mem, ER.leQ, ER.geQ,
    EPSILON, List.filter, List.take, List.drop, List.set, decide_eq_true_eq]
  simp
